import Mathlib

set_option maxHeartbeats 1000000

/-!
Verification of the two schema scripts of this repository:
`schemas/extract_date_fields.py` (date-field detection) and
`schemas/top_properties.py` (JSON pointer resolution and property counting
over hyper-schema `targetSchema` payloads).

JSON documents are embedded as the inductive type `J`.  Python `dict`s
produced by `json.load` never carry duplicate keys, so objects are embedded
as association lists looked up by first match.  JSON numbers are embedded as
integers: none of the verified code inspects numeric values beyond identity.
-/

inductive J where
  | null : J
  | bool : Bool → J
  | num : Int → J
  | str : String → J
  | arr : List J → J
  | obj : List (String × J) → J

/-- `node.get(k)` on an embedded JSON object: first matching key, if any. -/
def objGet (kvs : List (String × J)) (k : String) : Option J :=
  match kvs.find? (fun kv => kv.1 == k) with
  | some kv => some kv.2
  | none => none

/-- Python truthiness of a parsed-JSON value (`bool(x)`): `None`, `False`,
`0`, `""`, `[]` and `{}` are falsy, everything else truthy. -/
def pyTruthy : J → Bool
  | J.null => false
  | J.bool b => b
  | J.num n => n != 0
  | J.str s => s != ""
  | J.arr xs => !xs.isEmpty
  | J.obj kvs => !kvs.isEmpty

/-! ## `looks_like_iso_date`

Modelled from the spec: the source assigns `ISO_DATE_RE` from a raw string
literal that spans three physical lines with unescaped newlines
(`extract_date_fields.py` lines 22-24), which is a Python syntax error, so
the compiled module never defines the regex.  The definitions below embed
the documented pattern: four digits, a separator (dash or slash), two
digits, a separator, two digits, then an optional time part
`(T\d{2}:\d{2}(:\d{2})?(Z|[+-]\d{2}:?\d{2})?)?`, anchored at both ends.
This is exactly the source literal with the stray line breaks removed.
`\d` is embedded as an ASCII digit and, as in Python, the final `$` also
accepts a position just before one trailing newline. -/

/-- A date separator of the pattern: a dash or a slash. -/
def isSep (c : Char) : Bool := c == '-' || c == '/'

/-- Matcher for the tail `(Z|[+-]\d{2}:?\d{2})?` followed by end of input. -/
def tzTail : List Char → Bool
  | [] => true
  | ['Z'] => true
  | c :: h1 :: h2 :: rest =>
    (c == '+' || c == '-') && h1.isDigit && h2.isDigit &&
      (match rest with
       | [m1, m2] => m1.isDigit && m2.isDigit
       | [':', m1, m2] => m1.isDigit && m2.isDigit
       | _ => false)
  | _ => false

/-- Matcher for `(:\d{2})?` followed by the timezone tail.  The greedy
seconds group is sound here: the timezone alternatives never start with a
colon, so a leading `:\d{2}` can only be consumed by the seconds group. -/
def secTail : List Char → Bool
  | ':' :: s1 :: s2 :: rest =>
    if s1.isDigit && s2.isDigit then tzTail rest
    else tzTail (':' :: s1 :: s2 :: rest)
  | cs => tzTail cs

/-- Matcher for the optional time part `(T\d{2}:\d{2}...)?` at end. -/
def timeTail : List Char → Bool
  | [] => true
  | 'T' :: h1 :: h2 :: ':' :: n1 :: n2 :: rest =>
    h1.isDigit && h2.isDigit && n1.isDigit && n2.isDigit && secTail rest
  | _ => false

/-- Matcher for the whole pattern anchored at both ends. -/
def isoCore : List Char → Bool
  | y1 :: y2 :: y3 :: y4 :: s1 :: m1 :: m2 :: s2 :: d1 :: d2 :: rest =>
    y1.isDigit && y2.isDigit && y3.isDigit && y4.isDigit && isSep s1 &&
    m1.isDigit && m2.isDigit && isSep s2 && d1.isDigit && d2.isDigit &&
    timeTail rest
  | _ => false

/-- Modelled from the spec: `looks_like_iso_date` (the source regex literal
is a syntax error, see above).  Python `$` also matches just before a final
newline, hence the second disjunct. -/
def looksLikeIsoDate (s : String) : Bool :=
  isoCore s.data ||
    (match s.data.getLast? with
     | some c => c == '\n' && isoCore s.data.dropLast
     | none => false)

/-- C1: intended behaviour of `looks_like_iso_date` on the five documented
examples: `"2021-01-05"`, `"2021-01-05T10:00:00Z"` and `"2021-01-05T10:00"`
are accepted, `"2021-1-05"` and `"hello"` are rejected.  The claim is a
code bug in the source: the `ISO_DATE_RE` string literal spans lines 22-24
with unescaped newlines, so importing the module raises `SyntaxError` and
`looks_like_iso_date` never returns at all. -/
theorem c1_looks_like_iso_date_examples :
    looksLikeIsoDate "2021-01-05" = true ∧
    looksLikeIsoDate "2021-1-05" = false ∧
    looksLikeIsoDate "2021-01-05T10:00:00Z" = true ∧
    looksLikeIsoDate "2021-01-05T10:00" = true ∧
    looksLikeIsoDate "hello" = false := by
  decide

/-! ## `json_pointer_get` (`top_properties.py`, lines 7-36)

The pointer is processed as a list of characters.  Each failure mode of the
Python function maps to a distinct error: `ValueError` for a non-local
reference, `KeyError` for a non-integer list index, a missing object key or
a dereference on a scalar, and `IndexError` for an out-of-range list index.
-/

inductive PErr where
  | nonLocal : PErr
  | listIndexNotInt : PErr
  | indexOutOfRange : PErr
  | tokenNotFound : PErr
  | nonContainer : PErr
deriving DecidableEq

/-- Whitespace accepted (and stripped) by Python `int(str)`. -/
def isPySpace (c : Char) : Bool :=
  c == ' ' || c == '\t' || c == '\n' || c == '\r' || c == '\x0b' || c == '\x0c'

/-- Digit tail of a Python integer literal: single underscores are allowed
between digits only. -/
def pyIntDigits : List Char → Nat → Option Nat
  | [], acc => some acc
  | '_' :: d :: rest, acc =>
    if d.isDigit then pyIntDigits rest (acc * 10 + (d.toNat - 48)) else none
  | d :: rest, acc =>
    if d.isDigit then pyIntDigits rest (acc * 10 + (d.toNat - 48)) else none

/-- Unsigned part of Python `int(str)`: a digit followed by the digit tail. -/
def pyIntCore : List Char → Option Nat
  | d :: rest => if d.isDigit then pyIntDigits rest (d.toNat - 48) else none
  | [] => none

/-- Python `int(token)` on a string: optional surrounding whitespace, an
optional sign, then digits with optional single underscores between them. -/
def pyInt (cs : List Char) : Option Int :=
  let t := ((cs.dropWhile isPySpace).reverse.dropWhile isPySpace).reverse
  match t with
  | '+' :: rest => (pyIntCore rest).map (fun n => (n : Int))
  | '-' :: rest => (pyIntCore rest).map (fun n => -(n : Int))
  | rest => (pyIntCore rest).map (fun n => (n : Int))

/-- `str.replace` specialised to a two-character pattern replaced by one
character, scanning left to right without overlap, as in Python. -/
def replacePair (x y z : Char) : List Char → List Char
  | [] => []
  | [c] => [c]
  | c1 :: c2 :: rest =>
    if c1 == x && c2 == y then z :: replacePair x y z rest
    else c1 :: replacePair x y z (c2 :: rest)

/-- RFC 6901 unescaping as the source does it: first every `~1` becomes `/`,
then every `~0` becomes `~`. -/
def unescapeTok (cs : List Char) : List Char :=
  replacePair '~' '0' '~' (replacePair '~' '1' '/' cs)

/-- Python `s.split('/')`: split on every slash, keeping empty segments. -/
def splitSlash : List Char → List (List Char)
  | [] => [[]]
  | c :: rest =>
    if c == '/' then [] :: splitSlash rest
    else
      match splitSlash rest with
      | [] => [[c]]
      | seg :: segs => (c :: seg) :: segs

/-- The token loop of `json_pointer_get`: lists are indexed by Python
`int(token)` with Python index semantics (a negative index counts from the
end), objects by key membership, and anything else fails. -/
def jpLoop (cur : J) : List (List Char) → Except PErr J
  | [] => Except.ok cur
  | raw :: rest =>
    let token := unescapeTok raw
    match cur with
    | J.arr xs =>
      match pyInt token with
      | none => Except.error PErr.listIndexNotInt
      | some i =>
        let jdx : Int := if i < 0 then i + xs.length else i
        if jdx < 0 then Except.error PErr.indexOutOfRange
        else
          match xs.get? jdx.toNat with
          | some v => jpLoop v rest
          | none => Except.error PErr.indexOutOfRange
    | J.obj kvs =>
      match objGet kvs (String.mk token) with
      | some v => jpLoop v rest
      | none => Except.error PErr.tokenNotFound
    | _ => Except.error PErr.nonContainer

/-- `json_pointer_get` after the leading `#` has been stripped: the empty
pointer returns the document, a pointer not starting with `/` is a
non-local reference, otherwise the segments after the first slash are
resolved in order. -/
def jpBody (doc : J) (p : List Char) : Except PErr J :=
  match p with
  | [] => Except.ok doc
  | c :: rest =>
    if c == '/' then jpLoop doc ((splitSlash (c :: rest)).drop 1)
    else Except.error PErr.nonLocal

/-- `json_pointer_get` on a character list: strip one leading `#`, then
resolve. -/
def jpGetL (doc : J) (ptr : List Char) : Except PErr J :=
  match ptr with
  | [] => jpBody doc []
  | c :: rest => if c == '#' then jpBody doc rest else jpBody doc (c :: rest)

/-- `json_pointer_get(doc, pointer)`. -/
def jpGet (doc : J) (ptr : String) : Except PErr J :=
  jpGetL doc ptr.data

/-- The document of the worked example: `{"a": {"b": [10, 20]}}`. -/
def egDoc : J :=
  J.obj [("a", J.obj [("b", J.arr [J.num 10, J.num 20])])]

/-- The last element of a nonempty list sits at index `length - 1`. -/
theorem get?_pred_length_eq_getLast? {α : Type} :
    ∀ (x : α) (xs : List α),
      (x :: xs).get? ((x :: xs).length - 1) = (x :: xs).getLast? := by
  intro x xs
  induction xs generalizing x with
  | nil => rfl
  | cons y t ih =>
    have hlen : (x :: y :: t).length - 1 = ((y :: t).length - 1) + 1 := by
      simp only [List.length_cons]
      omega
    rw [hlen]
    show (y :: t).get? ((y :: t).length - 1) = (x :: y :: t).getLast?
    rw [ih y]
    rfl

/-- C2: behaviour of `json_pointer_get`.  A leading `#` is stripped; the
empty remaining pointer returns the document; a non-empty pointer not
starting with `/` is rejected as a non-local reference; each unescaped
segment indexes the current value, with the documented failures for a
non-integer list index, an out-of-range list index, a missing object key
and a dereference on a scalar; and the three worked examples hold. -/
theorem c2_json_pointer_get :
    (∀ (doc : J) (cs : List Char), jpGetL doc ('#' :: cs) = jpBody doc cs) ∧
    (∀ doc : J, jpGet doc "" = Except.ok doc ∧ jpGet doc "#" = Except.ok doc) ∧
    (∀ (doc : J) (c : Char) (cs : List Char), c ≠ '#' → c ≠ '/' →
      jpGetL doc (c :: cs) = Except.error PErr.nonLocal) ∧
    (∀ (doc : J) (c : Char) (cs : List Char), c ≠ '/' →
      jpGetL doc ('#' :: c :: cs) = Except.error PErr.nonLocal) ∧
    (∀ (xs : List J) (raw : List Char) (rest : List (List Char)),
      pyInt (unescapeTok raw) = none →
      jpLoop (J.arr xs) (raw :: rest) = Except.error PErr.listIndexNotInt) ∧
    (∀ (xs : List J) (raw : List Char) (rest : List (List Char)) (i : Int)
      (v : J), pyInt (unescapeTok raw) = some i → 0 ≤ i →
      xs.get? i.toNat = some v →
      jpLoop (J.arr xs) (raw :: rest) = jpLoop v rest) ∧
    (∀ (xs : List J) (raw : List Char) (rest : List (List Char)) (i : Int),
      pyInt (unescapeTok raw) = some i → 0 ≤ i → xs.get? i.toNat = none →
      jpLoop (J.arr xs) (raw :: rest) = Except.error PErr.indexOutOfRange) ∧
    (∀ (kvs : List (String × J)) (raw : List Char) (rest : List (List Char))
      (v : J), objGet kvs (String.mk (unescapeTok raw)) = some v →
      jpLoop (J.obj kvs) (raw :: rest) = jpLoop v rest) ∧
    (∀ (kvs : List (String × J)) (raw : List Char) (rest : List (List Char)),
      objGet kvs (String.mk (unescapeTok raw)) = none →
      jpLoop (J.obj kvs) (raw :: rest) = Except.error PErr.tokenNotFound) ∧
    (∀ (raw : List Char) (rest : List (List Char)),
      jpLoop J.null (raw :: rest) = Except.error PErr.nonContainer) ∧
    (∀ (b : Bool) (raw : List Char) (rest : List (List Char)),
      jpLoop (J.bool b) (raw :: rest) = Except.error PErr.nonContainer) ∧
    (∀ (n : Int) (raw : List Char) (rest : List (List Char)),
      jpLoop (J.num n) (raw :: rest) = Except.error PErr.nonContainer) ∧
    (∀ (s : String) (raw : List Char) (rest : List (List Char)),
      jpLoop (J.str s) (raw :: rest) = Except.error PErr.nonContainer) ∧
    unescapeTok ['~', '1'] = ['/'] ∧
    unescapeTok ['~', '0'] = ['~'] ∧
    jpGet egDoc "/a/b/1" = Except.ok (J.num 20) ∧
    jpGet egDoc "/a/b/9" = Except.error PErr.indexOutOfRange ∧
    jpGet egDoc "#/a" = Except.ok (J.obj [("b", J.arr [J.num 10, J.num 20])]) := by
  refine ⟨fun doc cs => rfl, fun doc => ⟨rfl, rfl⟩, ?_, ?_, ?_, ?_, ?_, ?_, ?_,
    fun raw rest => rfl, fun b raw rest => rfl, fun n raw rest => rfl,
    fun s raw rest => rfl, rfl, rfl, rfl, rfl, rfl⟩
  · intro doc c cs h1 h2
    simp only [jpGetL]
    rw [if_neg (by simp [h1])]
    simp only [jpBody]
    rw [if_neg (by simp [h2])]
  · intro doc c cs h2
    simp only [jpGetL, if_pos (by rfl : ('#' == '#') = true), jpBody]
    rw [if_neg (by simp [h2])]
  · intro xs raw rest h
    simp only [jpLoop, h]
  · intro xs raw rest i v h h0 hg
    have hneg : ¬ i < 0 := not_lt.mpr h0
    simp only [jpLoop, h, if_neg hneg]
    rw [hg]
  · intro xs raw rest i h h0 hg
    have hneg : ¬ i < 0 := not_lt.mpr h0
    simp only [jpLoop, h, if_neg hneg]
    rw [hg]
  · intro kvs raw rest v h
    simp only [jpLoop, h]
  · intro kvs raw rest h
    simp only [jpLoop, h]

/-- C2 witness: the non-integer list index failure and the non-local
reference failure at concrete inputs. -/
theorem c2_json_pointer_get_witness :
    jpLoop (J.arr []) [['x']] = Except.error PErr.listIndexNotInt ∧
    jpGetL egDoc ['a'] = Except.error PErr.nonLocal :=
  ⟨c2_json_pointer_get.2.2.2.2.1 [] ['x'] [] rfl,
   c2_json_pointer_get.2.2.1 egDoc 'a' [] (by decide) (by decide)⟩

/-- C10: a negative integer segment is accepted and indexes from the end of
the list, Python-style: the segment `-1` resolves to the last element of a
nonempty list, and the pointer with segments `a`, `b`, `-1` on the worked
document returns `20`. -/
theorem c10_negative_index_from_end :
    (∀ (xs : List J) (rest : List (List Char)) (v : J),
      xs.getLast? = some v →
      jpLoop (J.arr xs) (['-', '1'] :: rest) = jpLoop v rest) ∧
    jpGet egDoc "/a/b/-1" = Except.ok (J.num 20) := by
  constructor
  · intro xs rest v hlast
    match xs, hlast with
    | x :: xs, hlast =>
      have hp : pyInt (unescapeTok ['-', '1']) = some (-1) := rfl
      simp only [jpLoop, hp, List.length_cons]
      rw [if_pos (show (-1 : Int) < 0 by decide)]
      rw [if_neg (show ¬((-1 : Int) + ((xs.length + 1 : Nat) : Int) < 0) by
        push_cast; omega)]
      have hidx : ((-1 : Int) + ((xs.length + 1 : Nat) : Int)).toNat
          = (x :: xs).length - 1 := by
        simp only [List.length_cons]
        push_cast
        omega
      rw [hidx, get?_pred_length_eq_getLast?, hlast]
  · rfl

/-- C10 witness: `-1` on the two-element list returns its last element. -/
theorem c10_negative_index_from_end_witness :
    jpLoop (J.arr [J.num 10, J.num 20]) [['-', '1']] = jpLoop (J.num 20) [] :=
  c10_negative_index_from_end.1 [J.num 10, J.num 20] [] (J.num 20) rfl

/-! ## `has_date_indicator` and `collect` (`extract_date_fields.py`)

Both functions recurse through object lookups, so they are defined with a
fuel parameter that decreases structurally (keeping them computable) and a
canonical fuel of `sizeOf node`, which the stability lemmas below show is
always sufficient. -/

/-- Every embedded JSON value has positive size. -/
theorem one_le_sizeOf_J : ∀ node : J, 1 ≤ sizeOf node := by
  intro node
  cases node <;> simp_arith

/-- A value found by `objGet` is strictly smaller than the object. -/
theorem sizeOf_lt_of_objGet {kvs : List (String × J)} {k : String} {v : J}
    (h : objGet kvs k = some v) : sizeOf v < sizeOf (J.obj kvs) := by
  unfold objGet at h
  rcases hf : kvs.find? (fun kv => kv.1 == k) with _ | kv
  · rw [hf] at h
    cases h
  · rw [hf] at h
    cases h
    have hmem : kv ∈ kvs := List.mem_of_find?_eq_some hf
    have h1 : sizeOf kv < sizeOf kvs := List.sizeOf_lt_of_mem hmem
    have h2 : sizeOf kv = 1 + sizeOf kv.1 + sizeOf kv.2 := by
      cases kv
      simp_arith
    simp_arith
    omega

/-- An element of an embedded JSON array is strictly smaller than it. -/
theorem sizeOf_lt_of_mem_arr {xs : List J} {x : J} (h : x ∈ xs) :
    sizeOf x < sizeOf (J.arr xs) := by
  have h1 : sizeOf x < sizeOf xs := List.sizeOf_lt_of_mem h
  simp_arith
  omega

/-- `has_date_indicator` with explicit fuel.  An object node is a date
indicator iff its `format` is `"date-time"` or `"date"`, or its `example`
is a string accepted by the ISO matcher, or some element of an `anyOf`,
`oneOf` or `allOf` list is one recursively, or its (truthy) `items` value
is one; every non-object node is not. -/
def hdiF : Nat → J → Bool
  | 0, _ => false
  | fuel + 1, node =>
    match node with
    | J.obj kvs =>
      (match objGet kvs "format" with
       | some (J.str f) => f == "date-time" || f == "date"
       | _ => false) ||
      (match objGet kvs "example" with
       | some (J.str e) => looksLikeIsoDate e
       | _ => false) ||
      ((["anyOf", "oneOf", "allOf"] : List String).any (fun k =>
        match objGet kvs k with
        | some (J.arr xs) => xs.any (fun x => hdiF fuel x)
        | _ => false)) ||
      (match objGet kvs "items" with
       | some it => pyTruthy it && hdiF fuel it
       | none => false)
    | _ => false

/-- Pointwise-equal predicates give the same `List.any`. -/
theorem list_any_congr {α : Type} {p q : α → Bool} :
    ∀ (l : List α), (∀ x ∈ l, p x = q x) → l.any p = l.any q := by
  intro l
  induction l with
  | nil => intro _; rfl
  | cons a t ih =>
    intro h
    simp only [List.any_cons]
    rw [h a (List.mem_cons_self a t), ih (fun x hx => h x (List.mem_cons_of_mem a hx))]

/-- `hdiF` is independent of the fuel once it covers the node size. -/
theorem hdiF_stable : ∀ (f : Nat) (node : J) (g : Nat),
    sizeOf node ≤ f → sizeOf node ≤ g → hdiF f node = hdiF g node := by
  intro f
  induction f with
  | zero =>
    intro node g hf _
    exact absurd hf (by have := one_le_sizeOf_J node; omega)
  | succ f ih =>
    intro node g hf hg
    cases g with
    | zero => exact absurd hg (by have := one_le_sizeOf_J node; omega)
    | succ g =>
      cases node with
      | obj kvs =>
        simp only [hdiF]
        have hcomb :
            ((["anyOf", "oneOf", "allOf"] : List String).any (fun k =>
              match objGet kvs k with
              | some (J.arr xs) => xs.any (fun x => hdiF f x)
              | _ => false)) =
            ((["anyOf", "oneOf", "allOf"] : List String).any (fun k =>
              match objGet kvs k with
              | some (J.arr xs) => xs.any (fun x => hdiF g x)
              | _ => false)) := by
          apply list_any_congr
          intro k _
          rcases hk : objGet kvs k with _ | v
          · rfl
          · cases v with
            | arr xs =>
              apply list_any_congr
              intro x hx
              have hxv : sizeOf x < sizeOf (J.obj kvs) :=
                lt_trans (sizeOf_lt_of_mem_arr hx) (sizeOf_lt_of_objGet hk)
              exact ih x g (by omega) (by omega)
            | null => rfl
            | bool b => rfl
            | num n => rfl
            | str s => rfl
            | obj kvs2 => rfl
        have hitems :
            (match objGet kvs "items" with
             | some it => pyTruthy it && hdiF f it
             | none => false) =
            (match objGet kvs "items" with
             | some it => pyTruthy it && hdiF g it
             | none => false) := by
          rcases hk : objGet kvs "items" with _ | it
          · rfl
          · have hit : sizeOf it < sizeOf (J.obj kvs) := sizeOf_lt_of_objGet hk
            show (pyTruthy it && hdiF f it) = (pyTruthy it && hdiF g it)
            rw [ih it g (by omega) (by omega)]
        rw [hcomb, hitems]
      | null => rfl
      | bool b => rfl
      | num n => rfl
      | str s => rfl
      | arr xs => rfl

/-- A node accepted by `has_date_indicator` is a nonempty object, hence
truthy: the truthiness test on `items` never changes the result. -/
theorem pyTruthy_of_hdiF : ∀ (fuel : Nat) (node : J),
    hdiF fuel node = true → pyTruthy node = true := by
  intro fuel node h
  cases fuel with
  | zero => exact Bool.noConfusion h
  | succ f =>
    cases node with
    | null => exact Bool.noConfusion h
    | bool b => exact Bool.noConfusion h
    | num n => exact Bool.noConfusion h
    | str s => exact Bool.noConfusion h
    | arr xs => exact Bool.noConfusion h
    | obj kvs =>
      cases kvs with
      | nil => exact Bool.noConfusion h
      | cons kv rest => rfl

/-- Characterisation of `has_date_indicator` on an object node, for any
sufficient fuel; recursive positions are stated at their own canonical
fuel. -/
theorem hdiF_obj_iff : ∀ (kvs : List (String × J)) (fuel : Nat),
    sizeOf (J.obj kvs) ≤ fuel + 1 →
    (hdiF (fuel + 1) (J.obj kvs) = true ↔
      (∃ f, objGet kvs "format" = some (J.str f) ∧
        (f = "date-time" ∨ f = "date")) ∨
      (∃ e, objGet kvs "example" = some (J.str e) ∧
        looksLikeIsoDate e = true) ∨
      (∃ k xs x, k ∈ (["anyOf", "oneOf", "allOf"] : List String) ∧
        objGet kvs k = some (J.arr xs) ∧ x ∈ xs ∧
        hdiF (sizeOf x) x = true) ∨
      (∃ it, objGet kvs "items" = some it ∧ hdiF (sizeOf it) it = true)) := by
  intro kvs fuel hfuel
  simp only [hdiF, Bool.or_eq_true]
  constructor
  · rintro (((hA | hB) | hC) | hD)
    · left
      rcases hfm : objGet kvs "format" with _ | v
      · rw [hfm] at hA
        exact Bool.noConfusion hA
      · rw [hfm] at hA
        cases v with
        | str f =>
          have hf : (f == "date-time" || f == "date") = true := hA
          refine ⟨f, rfl, ?_⟩
          simpa using hf
        | null => exact Bool.noConfusion hA
        | bool b => exact Bool.noConfusion hA
        | num n => exact Bool.noConfusion hA
        | arr xs => exact Bool.noConfusion hA
        | obj kvs2 => exact Bool.noConfusion hA
    · right
      left
      rcases hex : objGet kvs "example" with _ | v
      · rw [hex] at hB
        exact Bool.noConfusion hB
      · rw [hex] at hB
        cases v with
        | str e => exact ⟨e, rfl, hB⟩
        | null => exact Bool.noConfusion hB
        | bool b => exact Bool.noConfusion hB
        | num n => exact Bool.noConfusion hB
        | arr xs => exact Bool.noConfusion hB
        | obj kvs2 => exact Bool.noConfusion hB
    · right
      right
      left
      rw [List.any_eq_true] at hC
      obtain ⟨k, hk, hmatch⟩ := hC
      rcases ho : objGet kvs k with _ | v
      · rw [ho] at hmatch
        exact Bool.noConfusion hmatch
      · rw [ho] at hmatch
        cases v with
        | arr xs =>
          have hxs : xs.any (fun x => hdiF fuel x) = true := hmatch
          rw [List.any_eq_true] at hxs
          obtain ⟨x, hx, hxd⟩ := hxs
          have hsz : sizeOf x ≤ fuel := by
            have h1 : sizeOf x < sizeOf (J.arr xs) := sizeOf_lt_of_mem_arr hx
            have h2 : sizeOf (J.arr xs) < sizeOf (J.obj kvs) :=
              sizeOf_lt_of_objGet ho
            omega
          refine ⟨k, xs, x, hk, ho, hx, ?_⟩
          rw [← hdiF_stable fuel x (sizeOf x) hsz (le_refl _)]
          exact hxd
        | null => exact Bool.noConfusion hmatch
        | bool b => exact Bool.noConfusion hmatch
        | num n => exact Bool.noConfusion hmatch
        | str s => exact Bool.noConfusion hmatch
        | obj kvs2 => exact Bool.noConfusion hmatch
    · right
      right
      right
      rcases hit : objGet kvs "items" with _ | it
      · rw [hit] at hD
        exact Bool.noConfusion hD
      · rw [hit] at hD
        have hD2 : (pyTruthy it && hdiF fuel it) = true := hD
        rw [Bool.and_eq_true] at hD2
        have hsz : sizeOf it ≤ fuel := by
          have := sizeOf_lt_of_objGet hit
          omega
        refine ⟨it, rfl, ?_⟩
        rw [← hdiF_stable fuel it (sizeOf it) hsz (le_refl _)]
        exact hD2.2
  · rintro (⟨f, hf, hval⟩ | ⟨e, he, hval⟩ | ⟨k, xs, x, hk, ho, hx, hxd⟩ |
      ⟨it, hit, hitd⟩)
    · left
      left
      left
      rw [hf]
      show (f == "date-time" || f == "date") = true
      rcases hval with h | h <;> simp [h]
    · left
      left
      right
      rw [he]
      exact hval
    · left
      right
      rw [List.any_eq_true]
      refine ⟨k, hk, ?_⟩
      rw [ho]
      show xs.any (fun x => hdiF fuel x) = true
      rw [List.any_eq_true]
      refine ⟨x, hx, ?_⟩
      have hsz : sizeOf x ≤ fuel := by
        have h1 : sizeOf x < sizeOf (J.arr xs) := sizeOf_lt_of_mem_arr hx
        have h2 : sizeOf (J.arr xs) < sizeOf (J.obj kvs) :=
          sizeOf_lt_of_objGet ho
        omega
      rw [hdiF_stable fuel x (sizeOf x) hsz (le_refl _)]
      exact hxd
    · right
      rw [hit]
      show (pyTruthy it && hdiF fuel it) = true
      rw [Bool.and_eq_true]
      have hsz : sizeOf it ≤ fuel := by
        have := sizeOf_lt_of_objGet hit
        omega
      refine ⟨pyTruthy_of_hdiF _ _ hitd, ?_⟩
      rw [hdiF_stable fuel it (sizeOf it) hsz (le_refl _)]
      exact hitd

/-- C6: `has_date_indicator` is false on every non-object node; on an
object node it is true exactly when `format` is `"date-time"` or `"date"`,
or `example` is a string accepted by `looks_like_iso_date`, or some element
of an `anyOf`, `oneOf` or `allOf` list satisfies it recursively, or the
`items` value satisfies it; and the three documented examples hold. -/
theorem c6_has_date_indicator :
    (∀ fuel, hdiF fuel J.null = false) ∧
    (∀ fuel b, hdiF fuel (J.bool b) = false) ∧
    (∀ fuel n, hdiF fuel (J.num n) = false) ∧
    (∀ fuel s, hdiF fuel (J.str s) = false) ∧
    (∀ fuel xs, hdiF fuel (J.arr xs) = false) ∧
    (∀ (kvs : List (String × J)) (fuel : Nat),
      sizeOf (J.obj kvs) ≤ fuel + 1 →
      (hdiF (fuel + 1) (J.obj kvs) = true ↔
        (∃ f, objGet kvs "format" = some (J.str f) ∧
          (f = "date-time" ∨ f = "date")) ∨
        (∃ e, objGet kvs "example" = some (J.str e) ∧
          looksLikeIsoDate e = true) ∨
        (∃ k xs x, k ∈ (["anyOf", "oneOf", "allOf"] : List String) ∧
          objGet kvs k = some (J.arr xs) ∧ x ∈ xs ∧
          hdiF (sizeOf x) x = true) ∨
        (∃ it, objGet kvs "items" = some it ∧ hdiF (sizeOf it) it = true))) ∧
    hdiF (sizeOf (J.obj [("format", J.str "date-time")]))
      (J.obj [("format", J.str "date-time")]) = true ∧
    (∀ fuel, hdiF fuel (J.obj [("format", J.str "uri")]) = false) ∧
    hdiF (sizeOf (J.obj [("anyOf", J.arr [J.obj [("format", J.str "date")],
        J.obj [("type", J.str "null")]])]))
      (J.obj [("anyOf", J.arr [J.obj [("format", J.str "date")],
        J.obj [("type", J.str "null")]])]) = true := by
  refine ⟨?_, ?_, ?_, ?_, ?_, hdiF_obj_iff, by decide, ?_, by decide⟩
  · intro fuel
    cases fuel <;> rfl
  · intro fuel b
    cases fuel <;> rfl
  · intro fuel n
    cases fuel <;> rfl
  · intro fuel s
    cases fuel <;> rfl
  · intro fuel xs
    cases fuel <;> rfl
  · intro fuel
    cases fuel <;> rfl

/-- C6 witness: the object characterisation applied to
`{"format": "date-time"}` with concrete fuel. -/
theorem c6_has_date_indicator_witness :
    hdiF (5000 + 1) (J.obj [("format", J.str "date-time")]) = true :=
  (c6_has_date_indicator.2.2.2.2.2.1 [("format", J.str "date-time")] 5000
      (by decide)).mpr
    (Or.inl ⟨"date-time", rfl, Or.inl rfl⟩)

/-- The C7 counterexample node: the first-present combinator list `anyOf`
has no date indicator, but `oneOf` does. -/
def c7Kvs : List (String × J) :=
  [("anyOf", J.arr [J.obj [("type", J.str "null")]]),
   ("oneOf", J.arr [J.obj [("format", J.str "date")]])]

/-- C7 counterexample: on a node whose first-present combinator list
(`anyOf`) contains no element with a date indicator and that has no
`items`, the claim predicts a false result, but the code still consults
`oneOf` and returns true. -/
theorem c7_counterexample_later_combinator_consulted :
    hdiF (sizeOf (J.obj c7Kvs)) (J.obj c7Kvs) = true ∧
    objGet c7Kvs "anyOf" = some (J.arr [J.obj [("type", J.str "null")]]) ∧
    hdiF (sizeOf (J.obj [("type", J.str "null")]))
      (J.obj [("type", J.str "null")]) = false ∧
    objGet c7Kvs "items" = none :=
  ⟨by decide, rfl, by decide, rfl⟩

/-- C7 amended: with no `format` or `example` indicator, the three
combinator keys `anyOf`, `oneOf`, `allOf` are all consulted in that order
until one of them yields a list containing an element with a date
indicator: an earlier list without one does not stop the later keys, and
only when all three fail does the result depend on `items` alone. -/
theorem c7_amended_all_combinators_checked :
    ∀ (kvs : List (String × J)) (fuel : Nat),
      sizeOf (J.obj kvs) ≤ fuel + 1 →
      (∀ f, objGet kvs "format" = some (J.str f) →
        f ≠ "date-time" ∧ f ≠ "date") →
      (∀ e, objGet kvs "example" = some (J.str e) →
        looksLikeIsoDate e = false) →
      (hdiF (fuel + 1) (J.obj kvs) = true ↔
        (∃ k xs x, k ∈ (["anyOf", "oneOf", "allOf"] : List String) ∧
          objGet kvs k = some (J.arr xs) ∧ x ∈ xs ∧
          hdiF (sizeOf x) x = true) ∨
        (∃ it, objGet kvs "items" = some it ∧
          hdiF (sizeOf it) it = true)) := by
  intro kvs fuel hfuel hfm hex
  rw [hdiF_obj_iff kvs fuel hfuel]
  constructor
  · rintro (⟨f, hf, hval⟩ | ⟨e, he, hval⟩ | hC | hD)
    · rcases hval with h | h
      · exact absurd h (hfm f hf).1
      · exact absurd h (hfm f hf).2
    · rw [hex e he] at hval
      exact Bool.noConfusion hval
    · exact Or.inl hC
    · exact Or.inr hD
  · rintro (hC | hD)
    · exact Or.inr (Or.inr (Or.inl hC))
    · exact Or.inr (Or.inr (Or.inr hD))

/-- C7 witness: the amended characterisation applied to the counterexample
node, whose `oneOf` list supplies the indicator. -/
theorem c7_amended_all_combinators_checked_witness :
    hdiF (5000 + 1) (J.obj c7Kvs) = true :=
  (c7_amended_all_combinators_checked c7Kvs 5000 (by decide)
      (fun f hf => Option.noConfusion hf)
      (fun e he => Option.noConfusion he)).mpr
    (Or.inl ⟨"oneOf", [J.obj [("format", J.str "date")]],
      J.obj [("format", J.str "date")], by decide, rfl,
      List.mem_singleton.mpr rfl, by decide⟩)

/-- An object entry value is strictly smaller than the object. -/
theorem sizeOf_snd_lt_of_mem_obj {entries : List (String × J)}
    {kv : String × J} (h : kv ∈ entries) :
    sizeOf kv.2 < sizeOf (J.obj entries) := by
  have h1 : sizeOf kv < sizeOf entries := List.sizeOf_lt_of_mem h
  have h2 : sizeOf kv = 1 + sizeOf kv.1 + sizeOf kv.2 := by
    cases kv
    simp_arith
  simp_arith
  omega

/-- The nine pass-through keys of `collect`, in source order. -/
def collectKeys : List String :=
  ["items", "anyOf", "oneOf", "allOf", "not", "additionalProperties",
   "patternProperties", "targetSchema", "schema"]

/-- Python `str.lower()` on a key: lower each character (ASCII, which is
what both `Char.toLower` and the schema keys use). -/
def lowerStr (s : String) : String := String.mk (s.data.map Char.toLower)

/-- The `properties` and `definitions` loop of `collect`: when the looked-up
value is an object, each entry adds its lowercased key if the value has a
date indicator and is then recursed into; any other value contributes
nothing. -/
def propsPart (hd : J → Bool) (rec : J → List String) : Option J → List String
  | some (J.obj entries) =>
    entries.flatMap (fun kv =>
      (if hd kv.2 then [lowerStr kv.1] else []) ++ rec kv.2)
  | _ => []

/-- A pass-through key of `collect`: recursed into when present and not
JSON `null` (Python `None`). -/
def keyPart (rec : J → List String) : Option J → List String
  | some J.null => []
  | some v => rec v
  | none => []

/-- `collect(node, out)` with explicit fuel, returning the added names in
traversal order (the Python accumulator is a set; the output is produced by
the final sorted deduplication). -/
def collectF : Nat → J → List String
  | 0, _ => []
  | fuel + 1, node =>
    match node with
    | J.obj kvs =>
      propsPart (fun v => hdiF fuel v) (fun v => collectF fuel v)
        (objGet kvs "properties") ++
      (propsPart (fun v => hdiF fuel v) (fun v => collectF fuel v)
        (objGet kvs "definitions") ++
       collectKeys.flatMap (fun key =>
         keyPart (fun v => collectF fuel v) (objGet kvs key)))
    | J.arr xs => xs.flatMap (fun x => collectF fuel x)
    | _ => []

/-- `propsPart` congruence in its two function arguments. -/
theorem propsPart_congr {hd hd2 : J → Bool} {rec rec2 : J → List String}
    (o : Option J)
    (h : ∀ entries, o = some (J.obj entries) → ∀ kv ∈ entries,
      hd kv.2 = hd2 kv.2 ∧ rec kv.2 = rec2 kv.2) :
    propsPart hd rec o = propsPart hd2 rec2 o := by
  rcases o with _ | v
  · rfl
  · cases v with
    | obj entries =>
      simp only [propsPart]
      apply List.flatMap_congr
      intro kv hkv
      obtain ⟨h1, h2⟩ := h entries rfl kv hkv
      rw [h1, h2]
    | null => rfl
    | bool b => rfl
    | num n => rfl
    | str s => rfl
    | arr xs => rfl

/-- `keyPart` congruence in its function argument. -/
theorem keyPart_congr {rec rec2 : J → List String} (o : Option J)
    (h : ∀ v, o = some v → rec v = rec2 v) :
    keyPart rec o = keyPart rec2 o := by
  rcases o with _ | v
  · rfl
  · cases v with
    | null => rfl
    | bool b => exact h (J.bool b) rfl
    | num n => exact h (J.num n) rfl
    | str s => exact h (J.str s) rfl
    | arr xs => exact h (J.arr xs) rfl
    | obj kvs => exact h (J.obj kvs) rfl

/-- `collectF` is independent of the fuel once it covers the node size. -/
theorem collectF_stable : ∀ (f : Nat) (node : J) (g : Nat),
    sizeOf node ≤ f → sizeOf node ≤ g → collectF f node = collectF g node := by
  intro f
  induction f with
  | zero =>
    intro node g hf _
    exact absurd hf (by have := one_le_sizeOf_J node; omega)
  | succ f ih =>
    intro node g hf hg
    cases g with
    | zero => exact absurd hg (by have := one_le_sizeOf_J node; omega)
    | succ g =>
      cases node with
      | obj kvs =>
        simp only [collectF]
        have hprops : ∀ (key : String),
            propsPart (fun v => hdiF f v) (fun v => collectF f v)
              (objGet kvs key) =
            propsPart (fun v => hdiF g v) (fun v => collectF g v)
              (objGet kvs key) := by
          intro key
          apply propsPart_congr
          intro entries he kv hkv
          have hsz : sizeOf kv.2 < sizeOf (J.obj kvs) :=
            lt_trans (sizeOf_snd_lt_of_mem_obj hkv) (sizeOf_lt_of_objGet he)
          exact ⟨hdiF_stable f kv.2 g (by omega) (by omega),
            ih kv.2 g (by omega) (by omega)⟩
        have hkeys : ∀ key : String,
            keyPart (fun v => collectF f v) (objGet kvs key) =
            keyPart (fun v => collectF g v) (objGet kvs key) := by
          intro key
          apply keyPart_congr
          intro v hv
          have hsz : sizeOf v < sizeOf (J.obj kvs) := sizeOf_lt_of_objGet hv
          exact ih v g (by omega) (by omega)
        rw [hprops "properties", hprops "definitions"]
        have : collectKeys.flatMap (fun key =>
            keyPart (fun v => collectF f v) (objGet kvs key)) =
            collectKeys.flatMap (fun key =>
            keyPart (fun v => collectF g v) (objGet kvs key)) :=
          List.flatMap_congr (fun key _ => hkeys key)
        rw [this]
      | arr xs =>
        simp only [collectF]
        apply List.flatMap_congr
        intro x hx
        have hsz : sizeOf x < sizeOf (J.arr xs) := sizeOf_lt_of_mem_arr hx
        exact ih x g (by omega) (by omega)
      | null => rfl
      | bool b => rfl
      | num n => rfl
      | str s => rfl

/-- The names `collect` adds to its output set: lowercased keys of
`properties` and `definitions` maps whose values have a date indicator,
reached by recursing into every property and definition value, through the
nine pass-through keys when present and not `null`, and through array
elements. -/
inductive Adds : J → String → Prop where
  | propHit : ∀ kvs entries k v,
      objGet kvs "properties" = some (J.obj entries) → (k, v) ∈ entries →
      hdiF (sizeOf v) v = true → Adds (J.obj kvs) (lowerStr k)
  | propRec : ∀ kvs entries k v s,
      objGet kvs "properties" = some (J.obj entries) → (k, v) ∈ entries →
      Adds v s → Adds (J.obj kvs) s
  | defHit : ∀ kvs entries k v,
      objGet kvs "definitions" = some (J.obj entries) → (k, v) ∈ entries →
      hdiF (sizeOf v) v = true → Adds (J.obj kvs) (lowerStr k)
  | defRec : ∀ kvs entries k v s,
      objGet kvs "definitions" = some (J.obj entries) → (k, v) ∈ entries →
      Adds v s → Adds (J.obj kvs) s
  | keyRec : ∀ kvs key v s, key ∈ collectKeys → objGet kvs key = some v →
      v ≠ J.null → Adds v s → Adds (J.obj kvs) s
  | arrRec : ∀ xs x s, x ∈ xs → Adds x s → Adds (J.arr xs) s

/-- Soundness of the walk: every name `collect` emits is justified by the
specification relation `Adds`. -/
theorem adds_of_mem_collectF : ∀ (fuel : Nat) (node : J) (s : String),
    sizeOf node ≤ fuel → s ∈ collectF fuel node → Adds node s := by
  intro fuel
  induction fuel with
  | zero =>
    intro node s h _
    exact absurd h (by have := one_le_sizeOf_J node; omega)
  | succ fuel ih =>
    intro node s hsz hmem
    cases node with
    | null => exact absurd hmem (List.not_mem_nil s)
    | bool b => exact absurd hmem (List.not_mem_nil s)
    | num n => exact absurd hmem (List.not_mem_nil s)
    | str s2 => exact absurd hmem (List.not_mem_nil s)
    | arr xs =>
      have hmem2 : s ∈ xs.flatMap (fun x => collectF fuel x) := hmem
      rw [List.mem_flatMap] at hmem2
      obtain ⟨x, hx, hmem3⟩ := hmem2
      have hxs : sizeOf x ≤ fuel := by
        have := sizeOf_lt_of_mem_arr hx
        omega
      exact Adds.arrRec xs x s hx (ih x s hxs hmem3)
    | obj kvs =>
      simp only [collectF] at hmem
      rw [List.mem_append, List.mem_append] at hmem
      have hpart : ∀ (key : String),
          s ∈ propsPart (fun v => hdiF fuel v) (fun v => collectF fuel v)
            (objGet kvs key) →
          ∃ entries k v, objGet kvs key = some (J.obj entries) ∧
            (k, v) ∈ entries ∧
            (hdiF (sizeOf v) v = true ∧ s = lowerStr k ∨
             s ∈ collectF fuel v) := by
        intro key hm
        rcases hp : objGet kvs key with _ | v
        · rw [hp] at hm
          exact absurd hm (List.not_mem_nil s)
        · rw [hp] at hm
          cases v with
          | obj entries =>
            simp only [propsPart] at hm
            rw [List.mem_flatMap] at hm
            obtain ⟨kv, hkv, hm2⟩ := hm
            obtain ⟨k, v⟩ := kv
            rw [List.mem_append] at hm2
            have hsv : sizeOf v ≤ fuel := by
              have h1 : sizeOf v < sizeOf (J.obj entries) :=
                sizeOf_snd_lt_of_mem_obj hkv
              have h2 := sizeOf_lt_of_objGet hp
              omega
            rcases hm2 with hm2 | hm2
            · have hm3 : s ∈ (if hdiF fuel v = true
                  then [lowerStr k] else []) := hm2
              cases hd : hdiF fuel v with
              | false =>
                rw [hd, if_neg (by simp)] at hm3
                exact absurd hm3 (List.not_mem_nil s)
              | true =>
                rw [hd, if_pos rfl] at hm3
                rw [List.mem_singleton] at hm3
                refine ⟨entries, k, v, rfl, hkv, Or.inl ⟨?_, hm3⟩⟩
                rw [← hdiF_stable fuel v (sizeOf v) hsv (le_refl _)]
                exact hd
            · have hm3 : s ∈ collectF fuel v := hm2
              exact ⟨entries, k, v, rfl, hkv, Or.inr hm3⟩
          | null => exact absurd hm (List.not_mem_nil s)
          | bool b => exact absurd hm (List.not_mem_nil s)
          | num n => exact absurd hm (List.not_mem_nil s)
          | str s3 => exact absurd hm (List.not_mem_nil s)
          | arr xs => exact absurd hm (List.not_mem_nil s)
      rcases hmem with hm | hm | hm
      · obtain ⟨entries, k, v, hp, hkv, hcase⟩ := hpart "properties" hm
        have hsv : sizeOf v ≤ fuel := by
          have h1 : sizeOf v < sizeOf (J.obj entries) :=
            sizeOf_snd_lt_of_mem_obj hkv
          have h2 := sizeOf_lt_of_objGet hp
          omega
        rcases hcase with ⟨hd, rfl⟩ | hrec
        · exact Adds.propHit kvs entries k v hp hkv hd
        · exact Adds.propRec kvs entries k v s hp hkv (ih v s hsv hrec)
      · obtain ⟨entries, k, v, hp, hkv, hcase⟩ := hpart "definitions" hm
        have hsv : sizeOf v ≤ fuel := by
          have h1 : sizeOf v < sizeOf (J.obj entries) :=
            sizeOf_snd_lt_of_mem_obj hkv
          have h2 := sizeOf_lt_of_objGet hp
          omega
        rcases hcase with ⟨hd, rfl⟩ | hrec
        · exact Adds.defHit kvs entries k v hp hkv hd
        · exact Adds.defRec kvs entries k v s hp hkv (ih v s hsv hrec)
      · rw [List.mem_flatMap] at hm
        obtain ⟨key, hkey, hm2⟩ := hm
        rcases ho : objGet kvs key with _ | v
        · rw [ho] at hm2
          exact absurd hm2 (List.not_mem_nil s)
        · rw [ho] at hm2
          have hsv : sizeOf v ≤ fuel := by
            have := sizeOf_lt_of_objGet ho
            omega
          cases v with
          | null => exact absurd hm2 (List.not_mem_nil s)
          | bool b =>
            exact Adds.keyRec kvs key (J.bool b) s hkey ho
              (fun h => J.noConfusion h) (ih (J.bool b) s hsv hm2)
          | num n =>
            exact Adds.keyRec kvs key (J.num n) s hkey ho
              (fun h => J.noConfusion h) (ih (J.num n) s hsv hm2)
          | str s3 =>
            exact Adds.keyRec kvs key (J.str s3) s hkey ho
              (fun h => J.noConfusion h) (ih (J.str s3) s hsv hm2)
          | arr xs =>
            exact Adds.keyRec kvs key (J.arr xs) s hkey ho
              (fun h => J.noConfusion h) (ih (J.arr xs) s hsv hm2)
          | obj kvs2 =>
            exact Adds.keyRec kvs key (J.obj kvs2) s hkey ho
              (fun h => J.noConfusion h) (ih (J.obj kvs2) s hsv hm2)

/-- Completeness of the walk: every name justified by `Adds` is emitted by
`collect` at any sufficient fuel. -/
theorem mem_collectF_of_adds : ∀ (node : J) (s : String), Adds node s →
    ∀ fuel, sizeOf node ≤ fuel → s ∈ collectF fuel node := by
  intro node s h
  induction h with
  | propHit kvs entries k v hp hkv hd =>
    intro fuel hsz
    obtain ⟨f, rfl⟩ : ∃ f, fuel = f + 1 :=
      ⟨fuel - 1, by have := one_le_sizeOf_J (J.obj kvs); omega⟩
    simp only [collectF]
    apply List.mem_append_left
    rw [hp]
    simp only [propsPart]
    rw [List.mem_flatMap]
    refine ⟨(k, v), hkv, ?_⟩
    apply List.mem_append_left
    have hsv : sizeOf v ≤ f := by
      have h1 : sizeOf v < sizeOf (J.obj entries) :=
        sizeOf_snd_lt_of_mem_obj hkv
      have h2 := sizeOf_lt_of_objGet hp
      omega
    have hd2 : hdiF f v = true := by
      rw [hdiF_stable f v (sizeOf v) hsv (le_refl _)]
      exact hd
    show lowerStr k ∈ (if hdiF f v = true then [lowerStr k] else [])
    rw [hd2, if_pos rfl]
    exact List.mem_singleton.mpr rfl
  | propRec kvs entries k v s hp hkv hadds ih =>
    intro fuel hsz
    obtain ⟨f, rfl⟩ : ∃ f, fuel = f + 1 :=
      ⟨fuel - 1, by have := one_le_sizeOf_J (J.obj kvs); omega⟩
    simp only [collectF]
    apply List.mem_append_left
    rw [hp]
    simp only [propsPart]
    rw [List.mem_flatMap]
    refine ⟨(k, v), hkv, ?_⟩
    apply List.mem_append_right
    have hsv : sizeOf v ≤ f := by
      have h1 : sizeOf v < sizeOf (J.obj entries) :=
        sizeOf_snd_lt_of_mem_obj hkv
      have h2 := sizeOf_lt_of_objGet hp
      omega
    show s ∈ collectF f v
    exact ih f hsv
  | defHit kvs entries k v hp hkv hd =>
    intro fuel hsz
    obtain ⟨f, rfl⟩ : ∃ f, fuel = f + 1 :=
      ⟨fuel - 1, by have := one_le_sizeOf_J (J.obj kvs); omega⟩
    simp only [collectF]
    apply List.mem_append_right
    apply List.mem_append_left
    rw [hp]
    simp only [propsPart]
    rw [List.mem_flatMap]
    refine ⟨(k, v), hkv, ?_⟩
    apply List.mem_append_left
    have hsv : sizeOf v ≤ f := by
      have h1 : sizeOf v < sizeOf (J.obj entries) :=
        sizeOf_snd_lt_of_mem_obj hkv
      have h2 := sizeOf_lt_of_objGet hp
      omega
    have hd2 : hdiF f v = true := by
      rw [hdiF_stable f v (sizeOf v) hsv (le_refl _)]
      exact hd
    show lowerStr k ∈ (if hdiF f v = true then [lowerStr k] else [])
    rw [hd2, if_pos rfl]
    exact List.mem_singleton.mpr rfl
  | defRec kvs entries k v s hp hkv hadds ih =>
    intro fuel hsz
    obtain ⟨f, rfl⟩ : ∃ f, fuel = f + 1 :=
      ⟨fuel - 1, by have := one_le_sizeOf_J (J.obj kvs); omega⟩
    simp only [collectF]
    apply List.mem_append_right
    apply List.mem_append_left
    rw [hp]
    simp only [propsPart]
    rw [List.mem_flatMap]
    refine ⟨(k, v), hkv, ?_⟩
    apply List.mem_append_right
    have hsv : sizeOf v ≤ f := by
      have h1 : sizeOf v < sizeOf (J.obj entries) :=
        sizeOf_snd_lt_of_mem_obj hkv
      have h2 := sizeOf_lt_of_objGet hp
      omega
    show s ∈ collectF f v
    exact ih f hsv
  | keyRec kvs key v s hkey ho hnn hadds ih =>
    intro fuel hsz
    obtain ⟨f, rfl⟩ : ∃ f, fuel = f + 1 :=
      ⟨fuel - 1, by have := one_le_sizeOf_J (J.obj kvs); omega⟩
    simp only [collectF]
    apply List.mem_append_right
    apply List.mem_append_right
    rw [List.mem_flatMap]
    refine ⟨key, hkey, ?_⟩
    rw [ho]
    have hsv : sizeOf v ≤ f := by
      have := sizeOf_lt_of_objGet ho
      omega
    cases v with
    | null => exact absurd rfl hnn
    | bool b => exact ih f hsv
    | num n => exact ih f hsv
    | str s2 => exact ih f hsv
    | arr xs => exact ih f hsv
    | obj kvs2 => exact ih f hsv
  | arrRec xs x s hx hadds ih =>
    intro fuel hsz
    obtain ⟨f, rfl⟩ : ∃ f, fuel = f + 1 :=
      ⟨fuel - 1, by have := one_le_sizeOf_J (J.arr xs); omega⟩
    show s ∈ xs.flatMap (fun y => collectF f y)
    rw [List.mem_flatMap]
    have hsv : sizeOf x ≤ f := by
      have := sizeOf_lt_of_mem_arr hx
      omega
    exact ⟨x, hx, ih f hsv⟩

/-- Every name `collect` emits is a lowercased key. -/
theorem exists_toLower_of_mem_collectF :
    ∀ (fuel : Nat) (node : J) (s : String),
      s ∈ collectF fuel node → ∃ k : String, s = lowerStr k := by
  intro fuel
  induction fuel with
  | zero =>
    intro node s h
    exact absurd h (List.not_mem_nil s)
  | succ fuel ih =>
    intro node s h
    cases node with
    | obj kvs =>
      simp only [collectF] at h
      rw [List.mem_append, List.mem_append] at h
      have hpart : ∀ key : String,
          s ∈ propsPart (fun v => hdiF fuel v) (fun v => collectF fuel v)
            (objGet kvs key) → ∃ k : String, s = lowerStr k := by
        intro key hm
        rcases hp : objGet kvs key with _ | v
        · rw [hp] at hm
          exact absurd hm (List.not_mem_nil s)
        · rw [hp] at hm
          cases v with
          | obj entries =>
            simp only [propsPart] at hm
            rw [List.mem_flatMap] at hm
            obtain ⟨kv, hkv, hm2⟩ := hm
            obtain ⟨k, v⟩ := kv
            rw [List.mem_append] at hm2
            rcases hm2 with hm2 | hm2
            · have hm3 : s ∈ (if hdiF fuel v = true
                  then [lowerStr k] else []) := hm2
              cases hd : hdiF fuel v with
              | false =>
                rw [hd, if_neg (by simp)] at hm3
                exact absurd hm3 (List.not_mem_nil s)
              | true =>
                rw [hd, if_pos rfl] at hm3
                exact ⟨k, List.mem_singleton.mp hm3⟩
            · have hm3 : s ∈ collectF fuel v := hm2
              exact ih v s hm3
          | null => exact absurd hm (List.not_mem_nil s)
          | bool b => exact absurd hm (List.not_mem_nil s)
          | num n => exact absurd hm (List.not_mem_nil s)
          | str s3 => exact absurd hm (List.not_mem_nil s)
          | arr xs => exact absurd hm (List.not_mem_nil s)
      rcases h with hm | hm | hm
      · exact hpart "properties" hm
      · exact hpart "definitions" hm
      · rw [List.mem_flatMap] at hm
        obtain ⟨key, hkey, hm2⟩ := hm
        rcases ho : objGet kvs key with _ | v
        · rw [ho] at hm2
          exact absurd hm2 (List.not_mem_nil s)
        · rw [ho] at hm2
          cases v with
          | null => exact absurd hm2 (List.not_mem_nil s)
          | bool b => exact ih (J.bool b) s hm2
          | num n => exact ih (J.num n) s hm2
          | str s2 => exact ih (J.str s2) s hm2
          | arr xs => exact ih (J.arr xs) s hm2
          | obj kvs2 => exact ih (J.obj kvs2) s hm2
    | arr xs =>
      have h2 : s ∈ xs.flatMap (fun x => collectF fuel x) := h
      rw [List.mem_flatMap] at h2
      obtain ⟨x, hx, h3⟩ := h2
      exact ih x s h3
    | null => exact absurd h (List.not_mem_nil s)
    | bool b => exact absurd h (List.not_mem_nil s)
    | num n => exact absurd h (List.not_mem_nil s)
    | str s2 => exact absurd h (List.not_mem_nil s)

/-- `sorted(set(...))`: deduplicate, then sort ascending. -/
def sortDedup (l : List String) : List String :=
  l.dedup.insertionSort (fun a b => a ≤ b)

/-- Membership survives the sorted deduplication. -/
theorem mem_sortDedup {s : String} {l : List String} :
    s ∈ sortDedup l ↔ s ∈ l := by
  unfold sortDedup
  rw [List.mem_insertionSort, List.mem_dedup]

/-- The sorted deduplication is sorted. -/
theorem sorted_sortDedup (l : List String) :
    (sortDedup l).Sorted (fun a b => a ≤ b) :=
  List.sorted_insertionSort _ _

/-- The sorted deduplication has no duplicates. -/
theorem nodup_sortDedup (l : List String) : (sortDedup l).Nodup :=
  (List.Perm.nodup_iff (List.perm_insertionSort _ _)).mpr (List.nodup_dedup l)

/-- Lists with the same underlying set have the same sorted
deduplication. -/
theorem sortDedup_eq_of_toFinset_eq {l1 l2 : List String}
    (h : l1.toFinset = l2.toFinset) : sortDedup l1 = sortDedup l2 := by
  apply List.eq_of_perm_of_sorted ?_ (sorted_sortDedup l1) (sorted_sortDedup l2)
  rw [List.perm_ext_iff_of_nodup (nodup_sortDedup l1) (nodup_sortDedup l2)]
  intro a
  rw [mem_sortDedup, mem_sortDedup, ← List.mem_toFinset, h, List.mem_toFinset]

/-- The detector output of `main` for a parsed document: the collected
names, deduplicated (the accumulator is a set) and sorted ascending. -/
def dateFieldsF (fuel : Nat) (doc : J) : List String :=
  sortDedup (collectF fuel doc)

/-- The C8 example document:
`{"properties": {"CreatedAt": {"format": "date-time"},
                 "name": {"type": "string"}}}`. -/
def egCollectDoc : J :=
  J.obj [("properties", J.obj
    [("CreatedAt", J.obj [("format", J.str "date-time")]),
     ("name", J.obj [("type", J.str "string")])])]

/-- C8: the detector output contains exactly the names the `Adds` relation
justifies (lowercased keys of `properties` and `definitions` maps whose
values have a date indicator, collected recursively); it is sorted
ascending without duplicates; every element is a lowercased key; and the
worked example yields exactly `["createdat"]`. -/
theorem c8_collect_output :
    (∀ (fuel : Nat) (doc : J) (s : String), sizeOf doc ≤ fuel →
      (s ∈ dateFieldsF fuel doc ↔ Adds doc s)) ∧
    (∀ (fuel : Nat) (doc : J),
      (dateFieldsF fuel doc).Sorted (fun a b => a ≤ b) ∧
      (dateFieldsF fuel doc).Nodup) ∧
    (∀ (fuel : Nat) (doc : J) (s : String), s ∈ dateFieldsF fuel doc →
      ∃ k : String, s = lowerStr k) ∧
    dateFieldsF (sizeOf egCollectDoc) egCollectDoc = ["createdat"] := by
  refine ⟨?_, ?_, ?_, by decide⟩
  · intro fuel doc s hsz
    unfold dateFieldsF
    rw [mem_sortDedup]
    constructor
    · exact adds_of_mem_collectF fuel doc s hsz
    · intro h
      exact mem_collectF_of_adds doc s h fuel hsz
  · intro fuel doc
    exact ⟨sorted_sortDedup _, nodup_sortDedup _⟩
  · intro fuel doc s h
    exact exists_toLower_of_mem_collectF fuel doc s (mem_sortDedup.mp h)

/-- C8 witness: on the worked example, `"createdat"` is in the output and
is justified by the specification relation. -/
theorem c8_collect_output_witness : Adds egCollectDoc "createdat" :=
  (c8_collect_output.1 20000 egCollectDoc "createdat" (by decide)).mp
    (by decide)

/-- C9: the detector is a pure, deterministic function of the parsed
document: any accumulation order (or multiplicity) of the found set gives
the same sorted output, and the output does not depend on the fuel once it
covers the document, so two runs on an unchanged document produce
identical serialized results. -/
theorem c9_deterministic_detector :
    (∀ (fuel : Nat) (doc : J) (l : List String),
      l.toFinset = (collectF fuel doc).toFinset →
      sortDedup l = dateFieldsF fuel doc) ∧
    (∀ (f g : Nat) (doc : J), sizeOf doc ≤ f → sizeOf doc ≤ g →
      dateFieldsF f doc = dateFieldsF g doc) := by
  constructor
  · intro fuel doc l h
    exact sortDedup_eq_of_toFinset_eq h
  · intro f g doc hf hg
    unfold dateFieldsF
    rw [collectF_stable f doc g hf hg]

/-- C9 witness: a differently-ordered, duplicated accumulation of the
example's found set produces the identical output. -/
theorem c9_deterministic_detector_witness :
    sortDedup ["createdat", "createdat"] = dateFieldsF 20000 egCollectDoc :=
  c9_deterministic_detector.1 20000 egCollectDoc ["createdat", "createdat"]
    (by decide)

/-! ## The counting walk (`top_properties.py`, lines 39-114)

Python guards cycles with a set of `id(node)` values.  A document parsed by
`json.load` is a tree (no two containers are the same object), so a node's
identity is exactly its path from the document root: the walk is embedded
over paths, with `getPath` recovering the node.  `$ref` resolution produces
the path of the target (theorem `rpLoop_agrees_jpLoop` below ties it to
`json_pointer_get`).  The walk takes fuel; the sufficiency theorem for C4
shows any fuel beyond the number of unvisited document nodes is enough. -/

inductive Tok where
  | key : String → Tok
  | idx : Nat → Tok
deriving DecidableEq, Repr

/-- The node of a document at a path (a tree node's identity). -/
def getPath : J → List Tok → Option J
  | doc, [] => some doc
  | J.obj kvs, Tok.key k :: rest =>
    match objGet kvs k with
    | some v => getPath v rest
    | none => none
  | J.arr xs, Tok.idx i :: rest =>
    match xs.get? i with
    | some v => getPath v rest
    | none => none
  | _, _ => none

/-- Path lookup distributes over path concatenation. -/
theorem getPath_append : ∀ (p q : List Tok) (doc : J),
    getPath doc (p ++ q) =
      match getPath doc p with
      | some v => getPath v q
      | none => none := by
  intro p
  induction p with
  | nil =>
    intro q doc
    cases doc <;> rfl
  | cons t rest ih =>
    intro q doc
    cases doc with
    | obj kvs =>
      cases t with
      | key k =>
        show getPath (J.obj kvs) (Tok.key k :: (rest ++ q)) = _
        rcases h : objGet kvs k with _ | v
        · simp only [getPath, h]
        · simp only [getPath, h]
          exact ih q v
      | idx i => rfl
    | arr xs =>
      cases t with
      | key k => rfl
      | idx i =>
        show getPath (J.arr xs) (Tok.idx i :: (rest ++ q)) = _
        rcases h : xs.get? i with _ | v
        · simp only [getPath, h]
        · simp only [getPath, h]
          exact ih q v
    | null => cases t <;> rfl
    | bool b => cases t <;> rfl
    | num n => cases t <;> rfl
    | str s => cases t <;> rfl

/-- All paths of a document (a superset suffices for the measure). -/
def allPathsF : Nat → J → List (List Tok)
  | 0, _ => []
  | fuel + 1, J.obj kvs =>
    [] :: kvs.flatMap (fun kv =>
      (allPathsF fuel kv.2).map (fun p => Tok.key kv.1 :: p))
  | fuel + 1, J.arr xs =>
    [] :: xs.enum.flatMap (fun ix =>
      (allPathsF fuel ix.2).map (fun p => Tok.idx ix.1 :: p))
  | _ + 1, _ => [[]]

/-- Successful indexing is reflected in `enumFrom`. -/
theorem mem_enumFrom_of_get? {α : Type} :
    ∀ (xs : List α) (n i : Nat) (x : α),
      xs.get? i = some x → (n + i, x) ∈ xs.enumFrom n := by
  intro xs
  induction xs with
  | nil =>
    intro n i x h
    cases h
  | cons y ys ih =>
    intro n i x h
    cases i with
    | zero =>
      cases h
      exact List.mem_cons_self _ _
    | succ i =>
      have h2 := ih (n + 1) i x h
      have : n + (i + 1) = n + 1 + i := by omega
      rw [this]
      exact List.mem_cons_of_mem _ h2

/-- Every valid path is enumerated by `allPathsF` at sufficient fuel. -/
theorem mem_allPathsF_of_getPath :
    ∀ (fuel : Nat) (node : J) (p : List Tok) (v : J),
      sizeOf node ≤ fuel → getPath node p = some v →
      p ∈ allPathsF fuel node := by
  intro fuel
  induction fuel with
  | zero =>
    intro node p v h _
    exact absurd h (by have := one_le_sizeOf_J node; omega)
  | succ fuel ih =>
    intro node p v hsz hg
    cases p with
    | nil =>
      cases node with
      | obj kvs => exact List.mem_cons_self _ _
      | arr xs => exact List.mem_cons_self _ _
      | null => exact List.mem_singleton.mpr rfl
      | bool b => exact List.mem_singleton.mpr rfl
      | num n => exact List.mem_singleton.mpr rfl
      | str s => exact List.mem_singleton.mpr rfl
    | cons t rest =>
      cases node with
      | obj kvs =>
        cases t with
        | key k =>
          rcases ho : objGet kvs k with _ | w
          · rw [show getPath (J.obj kvs) (Tok.key k :: rest) =
              (match objGet kvs k with
               | some v => getPath v rest
               | none => none) from rfl, ho] at hg
            cases hg
          · rw [show getPath (J.obj kvs) (Tok.key k :: rest) =
              (match objGet kvs k with
               | some v => getPath v rest
               | none => none) from rfl, ho] at hg
            have hkmem : ∃ kv, kv ∈ kvs ∧ kv.1 = k ∧ kv.2 = w := by
              unfold objGet at ho
              rcases hf : kvs.find? (fun kv => kv.1 == k) with _ | kv
              · rw [hf] at ho
                cases ho
              · rw [hf] at ho
                cases ho
                have hp := List.find?_some hf
                exact ⟨kv, List.mem_of_find?_eq_some hf,
                  by simpa using hp, rfl⟩
            obtain ⟨kv, hkv, hk1, hk2⟩ := hkmem
            apply List.mem_cons_of_mem
            rw [List.mem_flatMap]
            refine ⟨kv, hkv, ?_⟩
            rw [List.mem_map]
            refine ⟨rest, ?_, by rw [hk1]⟩
            have hszw : sizeOf w ≤ fuel := by
              have := sizeOf_lt_of_objGet ho
              omega
            rw [hk2]
            exact ih w rest v hszw hg
        | idx i =>
          rw [show getPath (J.obj kvs) (Tok.idx i :: rest) = none from rfl] at hg
          cases hg
      | arr xs =>
        cases t with
        | key k =>
          rw [show getPath (J.arr xs) (Tok.key k :: rest) = none from rfl] at hg
          cases hg
        | idx i =>
          rcases hx : xs.get? i with _ | x
          · rw [show getPath (J.arr xs) (Tok.idx i :: rest) =
              (match xs.get? i with
               | some v => getPath v rest
               | none => none) from rfl, hx] at hg
            cases hg
          · rw [show getPath (J.arr xs) (Tok.idx i :: rest) =
              (match xs.get? i with
               | some v => getPath v rest
               | none => none) from rfl, hx] at hg
            apply List.mem_cons_of_mem
            rw [List.mem_flatMap]
            have hix : (i, x) ∈ xs.enum := by
              have := mem_enumFrom_of_get? xs 0 i x hx
              simpa [List.enum] using this
            refine ⟨(i, x), hix, ?_⟩
            rw [List.mem_map]
            have hszx : sizeOf x ≤ fuel := by
              have hxm : x ∈ xs := List.get?_mem hx
              have := sizeOf_lt_of_mem_arr hxm
              omega
            exact ⟨rest, ih x rest v hszx hg, rfl⟩
      | null => cases t <;> cases hg
      | bool b => cases t <;> cases hg
      | num n => cases t <;> cases hg
      | str s => cases t <;> cases hg

/-- The termination measure: how many of the given paths are unvisited. -/
def measureP (paths : List (List Tok)) (v : List (List Tok)) : Nat :=
  (paths.toFinset \ v.toFinset).card

/-- Growing the visited set cannot grow the measure. -/
theorem measureP_mono {paths v v2 : List (List Tok)}
    (h : ∀ q, q ∈ v → q ∈ v2) : measureP paths v2 ≤ measureP paths v := by
  apply Finset.card_le_card
  apply Finset.sdiff_subset_sdiff (le_refl _)
  intro q hq
  rw [List.mem_toFinset] at hq
  rw [List.mem_toFinset]
  exact h q hq

/-- Visiting an unvisited listed path strictly shrinks the measure. -/
theorem measureP_insert_lt {paths v : List (List Tok)} {p : List Tok}
    (hmem : p ∈ paths) (hnot : p ∉ v) :
    measureP paths (p :: v) < measureP paths v := by
  apply Finset.card_lt_card
  constructor
  · apply Finset.sdiff_subset_sdiff (le_refl _)
    intro q hq
    rw [List.mem_toFinset] at hq
    rw [List.mem_toFinset]
    exact List.mem_cons_of_mem _ hq
  · intro hsub
    have hp : p ∈ paths.toFinset \ v.toFinset := by
      rw [Finset.mem_sdiff, List.mem_toFinset, List.mem_toFinset]
      exact ⟨hmem, hnot⟩
    have hp2 := hsub hp
    rw [Finset.mem_sdiff] at hp2
    exact hp2.2 (List.mem_toFinset.mpr (List.mem_cons_self _ _))

/-- The token loop of `json_pointer_get`, instrumented to return the path
of the resolved node instead of its value. -/
def rpLoop : J → List Tok → List (List Char) → Option (List Tok)
  | _, acc, [] => some acc
  | cur, acc, raw :: rest =>
    let token := unescapeTok raw
    match cur with
    | J.arr xs =>
      match pyInt token with
      | none => none
      | some i =>
        let jdx : Int := if i < 0 then i + xs.length else i
        if jdx < 0 then none
        else
          match xs.get? jdx.toNat with
          | some v => rpLoop v (acc ++ [Tok.idx jdx.toNat]) rest
          | none => none
    | J.obj kvs =>
      match objGet kvs (String.mk token) with
      | some v => rpLoop v (acc ++ [Tok.key (String.mk token)]) rest
      | none => none
    | _ => none

/-- A node is its own path-lookup at the empty path. -/
theorem getPath_nil (doc : J) : getPath doc [] = some doc := by
  cases doc <;> rfl

/-- `json_pointer_get` as a path, after the leading `#` is stripped. -/
def resolvePathBody (doc : J) (p : List Char) : Option (List Tok) :=
  match p with
  | [] => some []
  | c :: rest =>
    if c == '/' then rpLoop doc [] ((splitSlash (c :: rest)).drop 1)
    else none

/-- `json_pointer_get` as a path: same stripping and splitting as
`jpGetL`, but producing the target path. -/
def resolvePath (doc : J) (ptr : List Char) : Option (List Tok) :=
  match ptr with
  | [] => resolvePathBody doc []
  | c :: rest =>
    if c == '#' then resolvePathBody doc rest
    else resolvePathBody doc (c :: rest)

/-- The path loop agrees with the value loop of `json_pointer_get`: they
fail together, and on success the returned path addresses the returned
value in the document. -/
theorem rpLoop_agrees_jpLoop (doc : J) :
    ∀ (parts : List (List Char)) (cur : J) (acc : List Tok),
      getPath doc acc = some cur →
      (∀ e, jpLoop cur parts = Except.error e →
        rpLoop cur acc parts = none) ∧
      (∀ v, jpLoop cur parts = Except.ok v →
        ∃ p, rpLoop cur acc parts = some p ∧ getPath doc p = some v) := by
  intro parts
  induction parts with
  | nil =>
    intro cur acc hacc
    constructor
    · intro e he
      cases he
    · intro v hv
      cases hv
      exact ⟨acc, rfl, hacc⟩
  | cons raw rest ih =>
    intro cur acc hacc
    cases cur with
    | arr xs =>
      rcases hi : pyInt (unescapeTok raw) with _ | i
      · constructor
        · intro e he
          simp only [rpLoop, hi]
        · intro v hv
          simp only [jpLoop, hi] at hv
          exact Except.noConfusion hv
      · by_cases hneg : (if i < 0 then i + (xs.length : Int) else i) < 0
        · constructor
          · intro e he
            simp only [rpLoop, hi, if_pos hneg]
          · intro v hv
            simp only [jpLoop, hi, if_pos hneg] at hv
            exact Except.noConfusion hv
        · rcases hget : xs.get?
              ((if i < 0 then i + (xs.length : Int) else i)).toNat
            with _ | v2
          · constructor
            · intro e he
              simp only [rpLoop, hi, if_neg hneg, hget]
            · intro v hv
              simp only [jpLoop, hi, if_neg hneg, hget] at hv
              exact Except.noConfusion hv
          · have hacc2 : getPath doc (acc ++
                [Tok.idx ((if i < 0 then i + (xs.length : Int) else i)).toNat])
                = some v2 := by
              rw [getPath_append, hacc]
              show (match xs.get? ((if i < 0 then i + (xs.length : Int)
                else i)).toNat with
                | some v => getPath v []
                | none => none) = some v2
              rw [hget]
              exact getPath_nil v2
            obtain ⟨ihe, ihok⟩ := ih v2 (acc ++
              [Tok.idx ((if i < 0 then i + (xs.length : Int) else i)).toNat])
              hacc2
            constructor
            · intro e he
              simp only [jpLoop, hi, if_neg hneg, hget] at he
              simp only [rpLoop, hi, if_neg hneg, hget]
              exact ihe e he
            · intro v hv
              simp only [jpLoop, hi, if_neg hneg, hget] at hv
              simp only [rpLoop, hi, if_neg hneg, hget]
              exact ihok v hv
    | obj kvs =>
      rcases ho : objGet kvs (String.mk (unescapeTok raw)) with _ | v2
      · constructor
        · intro e he
          simp only [rpLoop, ho]
        · intro v hv
          simp only [jpLoop, ho] at hv
          exact Except.noConfusion hv
      · have hacc2 : getPath doc (acc ++
            [Tok.key (String.mk (unescapeTok raw))]) = some v2 := by
          rw [getPath_append, hacc]
          show (match objGet kvs (String.mk (unescapeTok raw)) with
            | some v => getPath v []
            | none => none) = some v2
          rw [ho]
          exact getPath_nil v2
        obtain ⟨ihe, ihok⟩ := ih v2
          (acc ++ [Tok.key (String.mk (unescapeTok raw))]) hacc2
        constructor
        · intro e he
          simp only [jpLoop, ho] at he
          simp only [rpLoop, ho]
          exact ihe e he
        · intro v hv
          simp only [jpLoop, ho] at hv
          simp only [rpLoop, ho]
          exact ihok v hv
    | null =>
      exact ⟨fun e he => rfl, fun v hv => Except.noConfusion hv⟩
    | bool b =>
      exact ⟨fun e he => rfl, fun v hv => Except.noConfusion hv⟩
    | num n =>
      exact ⟨fun e he => rfl, fun v hv => Except.noConfusion hv⟩
    | str s =>
      exact ⟨fun e he => rfl, fun v hv => Except.noConfusion hv⟩

/-- Body-level agreement after the `#` strip. -/
theorem resolvePathBody_agrees_jpBody (doc : J) (q : List Char) :
    (∀ e, jpBody doc q = Except.error e → resolvePathBody doc q = none) ∧
    (∀ v, jpBody doc q = Except.ok v →
      ∃ p, resolvePathBody doc q = some p ∧ getPath doc p = some v) := by
  cases q with
  | nil =>
    constructor
    · intro e he
      cases he
    · intro v hv
      cases hv
      exact ⟨[], rfl, getPath_nil doc⟩
  | cons c r =>
    by_cases hc : c == '/'
    · obtain ⟨ihe, ihok⟩ := rpLoop_agrees_jpLoop doc
        ((splitSlash (c :: r)).drop 1) doc [] (getPath_nil doc)
      constructor
      · intro e he
        simp only [jpBody, if_pos hc] at he
        simp only [resolvePathBody, if_pos hc]
        exact ihe e he
      · intro v hv
        simp only [jpBody, if_pos hc] at hv
        simp only [resolvePathBody, if_pos hc]
        exact ihok v hv
    · constructor
      · intro e he
        simp only [resolvePathBody, if_neg hc]
      · intro v hv
        simp only [jpBody, if_neg hc] at hv
        exact Except.noConfusion hv

/-- Top-level agreement: `resolvePath` fails exactly when
`json_pointer_get` raises, and on success its path addresses the value
`json_pointer_get` returns. -/
theorem resolvePath_agrees_jpGetL (doc : J) (ptr : List Char) :
    (∀ e, jpGetL doc ptr = Except.error e → resolvePath doc ptr = none) ∧
    (∀ v, jpGetL doc ptr = Except.ok v →
      ∃ p, resolvePath doc ptr = some p ∧ getPath doc p = some v) := by
  cases ptr with
  | nil => exact resolvePathBody_agrees_jpBody doc []
  | cons c rest =>
    by_cases hc : c == '#'
    · obtain ⟨ihe, ihok⟩ := resolvePathBody_agrees_jpBody doc rest
      constructor
      · intro e he
        simp only [jpGetL, if_pos hc] at he
        simp only [resolvePath, if_pos hc]
        exact ihe e he
      · intro v hv
        simp only [jpGetL, if_pos hc] at hv
        simp only [resolvePath, if_pos hc]
        exact ihok v hv
    · obtain ⟨ihe, ihok⟩ := resolvePathBody_agrees_jpBody doc (c :: rest)
      constructor
      · intro e he
        simp only [jpGetL, if_neg hc] at he
        simp only [resolvePath, if_neg hc]
        exact ihe e he
      · intro v hv
        simp only [jpGetL, if_neg hc] at hv
        simp only [resolvePath, if_neg hc]
        exact ihok v hv

/-- Walk state: visited paths and emitted count events.  An event
`(p, i, name)` records the increment `counts[name] += 1` made while
processing entry `i` of the `properties` map of the node at path `p`. -/
abbrev WSt : Type := List (List Tok) × List (List Tok × Nat × String)

/-- Thread an optional state transformer through a list. -/
def optFold {α σ : Type} (f : α → σ → Option σ) : List α → σ → Option σ
  | [], st => some st
  | a :: as, st =>
    match f a st with
    | some st2 => optFold f as st2
    | none => none

/-- The sub-schema keys the walk recurses into by name. -/
def walkKeys : List String :=
  ["items", "additionalItems", "additionalProperties", "propertyNames",
   "definitions", "dependencies", "allOf", "anyOf", "oneOf", "not",
   "if", "then", "else", "contains"]

/-- The `$ref` step: a string ref starting with `#` or `/` is resolved
against the whole document and the target walked; a failed resolution is
swallowed, leaving the state unchanged. -/
def refStepW (doc : J) (w : List Tok → WSt → Option WSt)
    (kvs : List (String × J)) (st : WSt) : Option WSt :=
  match objGet kvs "$ref" with
  | some (J.str r) =>
    if r.data.head? == some '#' || r.data.head? == some '/' then
      match resolvePath doc r.data with
      | some tp => w tp st
      | none => some st
    else some st
  | _ => some st

/-- The `properties` step: each entry, in order, emits a count event for
its name and then walks the property schema. -/
def propsWalkW (w : List Tok → WSt → Option WSt) (path : List Tok)
    (kvs : List (String × J)) (st : WSt) : Option WSt :=
  match objGet kvs "properties" with
  | some (J.obj props) =>
    optFold (fun ikv st2 =>
      w (path ++ [Tok.key "properties", Tok.key ikv.2.1])
        (st2.1, st2.2 ++ [(path, ikv.1, ikv.2.1)])) props.enum st
  | _ => some st

/-- One entry of the generic recursion loop over the node's keys:
`properties` is skipped (already handled), `patternProperties` walks the
values of a dict, the recognised sub-schema keys are walked, and any other
dict or list value is walked too. -/
def genStepW (w : List Tok → WSt → Option WSt) (path : List Tok)
    (kv : String × J) (st : WSt) : Option WSt :=
  if kv.1 == "properties" then some st
  else if kv.1 == "patternProperties" then
    match kv.2 with
    | J.obj subs =>
      optFold (fun skv st2 =>
        w (path ++ [Tok.key "patternProperties", Tok.key skv.1]) st2) subs st
    | _ => some st
  else if kv.1 ∈ walkKeys then w (path ++ [Tok.key kv.1]) st
  else
    match kv.2 with
    | J.obj _ => w (path ++ [Tok.key kv.1]) st
    | J.arr _ => w (path ++ [Tok.key kv.1]) st
    | _ => some st

/-- The cycle-guarded counting walk of `count_properties_in_target_payloads`,
over paths of the document tree, with fuel. -/
def walkF (doc : J) : Nat → List Tok → WSt → Option WSt
  | 0, _, _ => none
  | fuel + 1, path, st =>
    match getPath doc path with
    | some (J.obj kvs) =>
      if path ∈ st.1 then some st
      else
        (refStepW doc (fun p s => walkF doc fuel p s) kvs
            (path :: st.1, st.2)).bind (fun st1 =>
          (propsWalkW (fun p s => walkF doc fuel p s) path kvs st1).bind
            (fun st2 =>
              optFold (genStepW (fun p s => walkF doc fuel p s) path)
                kvs st2))
    | some (J.arr xs) =>
      if path ∈ st.1 then some st
      else
        optFold (fun i st2 => walkF doc fuel (path ++ [Tok.idx i]) st2)
          (List.range xs.length) (path :: st.1, st.2)
    | _ => some st

/-- The payload-schema paths: for every `definitions` entry that is an
object, for every element of its `links` list that is an object, the path
of its `targetSchema` when that is an object or a list. -/
def payloadPaths (doc : J) : List (List Tok) :=
  match doc with
  | J.obj kvs =>
    match objGet kvs "definitions" with
    | some (J.obj defs) =>
      defs.flatMap (fun dkv =>
        match dkv.2 with
        | J.obj dkvs =>
          match objGet dkvs "links" with
          | some (J.arr links) =>
            links.enum.flatMap (fun il =>
              match il.2 with
              | J.obj lkvs =>
                match objGet lkvs "targetSchema" with
                | some (J.obj _) =>
                  [[Tok.key "definitions", Tok.key dkv.1, Tok.key "links",
                    Tok.idx il.1, Tok.key "targetSchema"]]
                | some (J.arr _) =>
                  [[Tok.key "definitions", Tok.key dkv.1, Tok.key "links",
                    Tok.idx il.1, Tok.key "targetSchema"]]
                | _ => []
              | _ => [])
          | _ => []
        | _ => [])
    | _ => []
  | _ => []

/-- `count_properties_in_target_payloads` with fuel: every payload walk
starts from a fresh empty visited list, and all payload walks share one
event accumulator. -/
def countPropsO (doc : J) (fuel : Nat) :
    Option (List (List Tok × Nat × String)) :=
  optFold (fun p ev =>
    match walkF doc fuel p ([], ev) with
    | some st => some st.2
    | none => none) (payloadPaths doc) []

/-- The count of one property name in the event table. -/
def countOf (events : List (List Tok × Nat × String)) (name : String) : Nat :=
  (events.filter (fun e => e.2.2 == name)).length

/-- Unfolding of the walk on an unvisited object node. -/
theorem walkF_obj {doc : J} {fuel : Nat} {path : List Tok} {st : WSt}
    {kvs : List (String × J)} (hg : getPath doc path = some (J.obj kvs))
    (hnot : path ∉ st.1) :
    walkF doc (fuel + 1) path st =
      (refStepW doc (fun p s => walkF doc fuel p s) kvs
          (path :: st.1, st.2)).bind (fun st1 =>
        (propsWalkW (fun p s => walkF doc fuel p s) path kvs st1).bind
          (fun st2 =>
            optFold (genStepW (fun p s => walkF doc fuel p s) path)
              kvs st2)) := by
  simp only [walkF, hg, if_neg hnot]

/-- Unfolding of the walk on an unvisited array node. -/
theorem walkF_arr {doc : J} {fuel : Nat} {path : List Tok} {st : WSt}
    {xs : List J} (hg : getPath doc path = some (J.arr xs))
    (hnot : path ∉ st.1) :
    walkF doc (fuel + 1) path st =
      optFold (fun i st2 => walkF doc fuel (path ++ [Tok.idx i]) st2)
        (List.range xs.length) (path :: st.1, st.2) := by
  simp only [walkF, hg, if_neg hnot]

/-- The walk returns immediately on an already-visited container. -/
theorem walkF_visited {doc : J} {fuel : Nat} {path : List Tok} {st : WSt}
    (hmem : path ∈ st.1) :
    walkF doc (fuel + 1) path st = some st := by
  rcases hg : getPath doc path with _ | node
  · simp only [walkF, hg]
  · cases node with
    | obj kvs => simp only [walkF, hg, if_pos hmem]
    | arr xs => simp only [walkF, hg, if_pos hmem]
    | null => simp only [walkF, hg]
    | bool b => simp only [walkF, hg]
    | num n => simp only [walkF, hg]
    | str s => simp only [walkF, hg]

/-- The walk returns immediately when the path holds no container. -/
theorem walkF_scalar {doc : J} {fuel : Nat} {path : List Tok} {st : WSt}
    (hg : ∀ kvs, getPath doc path ≠ some (J.obj kvs))
    (hg2 : ∀ xs, getPath doc path ≠ some (J.arr xs)) :
    walkF doc (fuel + 1) path st = some st := by
  rcases h : getPath doc path with _ | node
  · simp only [walkF, h]
  · cases node with
    | obj kvs => exact absurd h (hg kvs)
    | arr xs => exact absurd h (hg2 xs)
    | null => simp only [walkF, h]
    | bool b => simp only [walkF, h]
    | num n => simp only [walkF, h]
    | str s => simp only [walkF, h]

/-- One successful walk step grows the visited set and appends pairwise
distinct events whose node paths were unvisited before the step and are
visited after it. -/
def StepOk (st st2 : WSt) : Prop :=
  (∀ q, q ∈ st.1 → q ∈ st2.1) ∧
  ∃ Δ, st2.2 = st.2 ++ Δ ∧ Δ.Nodup ∧
    ∀ pe ∈ Δ, pe.1 ∈ st2.1 ∧ pe.1 ∉ st.1

theorem stepOk_refl (st : WSt) : StepOk st st :=
  ⟨fun _ h => h, [], by simp, List.nodup_nil, by simp⟩

theorem stepOk_trans {a b c : WSt} (h1 : StepOk a b) (h2 : StepOk b c) :
    StepOk a c := by
  obtain ⟨g1, Δ1, he1, hn1, hf1⟩ := h1
  obtain ⟨g2, Δ2, he2, hn2, hf2⟩ := h2
  refine ⟨fun q h => g2 q (g1 q h), Δ1 ++ Δ2, ?_, ?_, ?_⟩
  · rw [he2, he1, List.append_assoc]
  · rw [List.nodup_append]
    refine ⟨hn1, hn2, ?_⟩
    intro pe hpe1 hpe2
    exact (hf2 pe hpe2).2 ((hf1 pe hpe1).1)
  · intro pe hpe
    rw [List.mem_append] at hpe
    rcases hpe with hpe | hpe
    · exact ⟨g2 _ (hf1 pe hpe).1, (hf1 pe hpe).2⟩
    · exact ⟨(hf2 pe hpe).1, fun hin => (hf2 pe hpe).2 (g1 _ hin)⟩

/-- `StepOk` is preserved by folding. -/
theorem optFold_stepOk {α : Type} (f : α → WSt → Option WSt)
    (hf : ∀ a st st2, f a st = some st2 → StepOk st st2) :
    ∀ (l : List α) (st st2), optFold f l st = some st2 → StepOk st st2 := by
  intro l
  induction l with
  | nil =>
    intro st st2 h
    cases h
    exact stepOk_refl st
  | cons a as ih =>
    intro st st2 h
    rcases hfa : f a st with _ | mid
    · simp only [optFold, hfa] at h
      exact Option.noConfusion h
    · simp only [optFold, hfa] at h
      exact stepOk_trans (hf a st mid hfa) (ih mid st2 h)

/-- The `$ref` step satisfies `StepOk` when the walk does. -/
theorem refStepW_stepOk {doc : J} {w : List Tok → WSt → Option WSt}
    (hw : ∀ p st st2, w p st = some st2 → StepOk st st2) :
    ∀ (kvs : List (String × J)) (st st2 : WSt),
      refStepW doc w kvs st = some st2 → StepOk st st2 := by
  intro kvs st st2 h
  unfold refStepW at h
  rcases ho : objGet kvs "$ref" with _ | v
  · rw [ho] at h
    cases h
    exact stepOk_refl st
  · rw [ho] at h
    cases v with
    | str r =>
      have h2 : (if (r.data.head? == some '#' || r.data.head? == some '/')
            = true then
          (match resolvePath doc r.data with
           | some tp => w tp st
           | none => some st)
          else some st) = some st2 := h
      by_cases hc : (r.data.head? == some '#' || r.data.head? == some '/')
          = true
      · rw [if_pos hc] at h2
        rcases hr : resolvePath doc r.data with _ | tp
        · rw [hr] at h2
          cases h2
          exact stepOk_refl st
        · rw [hr] at h2
          exact hw tp st st2 h2
      · rw [if_neg hc] at h2
        cases h2
        exact stepOk_refl st
    | null => cases h; exact stepOk_refl st
    | bool b => cases h; exact stepOk_refl st
    | num n => cases h; exact stepOk_refl st
    | arr xs => cases h; exact stepOk_refl st
    | obj kvs2 => cases h; exact stepOk_refl st

/-- Each generic-loop entry satisfies `StepOk` when the walk does. -/
theorem genStepW_stepOk {w : List Tok → WSt → Option WSt} {path : List Tok}
    (hw : ∀ p st st2, w p st = some st2 → StepOk st st2) :
    ∀ (kv : String × J) (st st2 : WSt),
      genStepW w path kv st = some st2 → StepOk st st2 := by
  intro kv st st2 h
  unfold genStepW at h
  by_cases h1 : (kv.1 == "properties") = true
  · rw [if_pos h1] at h
    cases h
    exact stepOk_refl st
  · rw [if_neg h1] at h
    by_cases h2 : (kv.1 == "patternProperties") = true
    · rw [if_pos h2] at h
      rcases hv : kv.2 with _ | b | n | s | xs | subs
      · rw [hv] at h; cases h; exact stepOk_refl st
      · rw [hv] at h; cases h; exact stepOk_refl st
      · rw [hv] at h; cases h; exact stepOk_refl st
      · rw [hv] at h; cases h; exact stepOk_refl st
      · rw [hv] at h; cases h; exact stepOk_refl st
      · rw [hv] at h
        exact optFold_stepOk _ (fun skv st st2 hs => hw _ st st2 hs)
          subs st st2 h
    · rw [if_neg h2] at h
      by_cases h3 : kv.1 ∈ walkKeys
      · rw [if_pos h3] at h
        exact hw _ st st2 h
      · rw [if_neg h3] at h
        rcases hv : kv.2 with _ | b | n | s | xs | subs
        · rw [hv] at h; cases h; exact stepOk_refl st
        · rw [hv] at h; cases h; exact stepOk_refl st
        · rw [hv] at h; cases h; exact stepOk_refl st
        · rw [hv] at h; cases h; exact stepOk_refl st
        · rw [hv] at h
          exact hw _ st st2 h
        · rw [hv] at h
          exact hw _ st st2 h

/-- Invariant of the `properties` loop at a node whose path is already
visited: visited grows, and the appended events are pairwise distinct,
each being either a count event of this node (with entry index drawn from
the processed entries) or a child-walk event at a freshly visited path. -/
def PropsOk (path : List Tok) (idxs : List Nat) (st st2 : WSt) : Prop :=
  (∀ q, q ∈ st.1 → q ∈ st2.1) ∧
  ∃ Δ, st2.2 = st.2 ++ Δ ∧ Δ.Nodup ∧
    (∀ pe ∈ Δ, pe.1 ∈ st2.1 ∧ (pe.1 = path ∨ pe.1 ∉ st.1)) ∧
    (∀ pe ∈ Δ, pe.1 = path → pe.2.1 ∈ idxs)

/-- The enumerated `properties` fold satisfies `PropsOk`. -/
theorem propsFold_ok {w : List Tok → WSt → Option WSt} {path : List Tok}
    (hw : ∀ p st st2, w p st = some st2 → StepOk st st2) :
    ∀ (l : List (Nat × String × J)) (st st2 : WSt),
      path ∈ st.1 → (l.map Prod.fst).Nodup →
      optFold (fun ikv st2 =>
        w (path ++ [Tok.key "properties", Tok.key ikv.2.1])
          (st2.1, st2.2 ++ [(path, ikv.1, ikv.2.1)])) l st = some st2 →
      PropsOk path (l.map Prod.fst) st st2 := by
  intro l
  induction l with
  | nil =>
    intro st st2 hp hn h
    cases h
    exact ⟨fun _ h => h, [], by simp, List.nodup_nil, by simp, by simp⟩
  | cons ikv l2 ih =>
    obtain ⟨i, k, v⟩ := ikv
    intro st st2 hp hn h
    rcases hfa : w (path ++ [Tok.key "properties", Tok.key k])
        (st.1, st.2 ++ [(path, i, k)]) with _ | mid
    · simp only [optFold, hfa] at h
      exact Option.noConfusion h
    · simp only [optFold, hfa] at h
      have hstep : StepOk (st.1, st.2 ++ [(path, i, k)]) mid :=
        hw _ _ _ hfa
      obtain ⟨g1, Δc, hec, hnc, hfc⟩ := hstep
      have hn2 : ((i, k, v) :: l2).map Prod.fst = i :: l2.map Prod.fst := rfl
      rw [hn2] at hn
      rw [List.nodup_cons] at hn
      obtain ⟨hinot, hn'⟩ := hn
      have hih := ih mid st2 (g1 path hp) hn' h
      obtain ⟨g2, Δr, her, hnr, hfr, hir⟩ := hih
      refine ⟨fun q hq => g2 q (g1 q hq),
        (path, i, k) :: (Δc ++ Δr), ?_, ?_, ?_, ?_⟩
      · rw [her, hec]
        simp
      · rw [List.nodup_cons, List.nodup_append]
        refine ⟨?_, hnc, hnr, ?_⟩
        · intro hmem
          rw [List.mem_append] at hmem
          rcases hmem with hmem | hmem
          · exact (hfc _ hmem).2 hp
          · have := hir _ hmem rfl
            exact hinot this
        · intro pe hpe1 hpe2
          have h1 := hfc pe hpe1
          rcases (hfr pe hpe2).2 with hpath | hnot
          · rw [hpath] at h1
            exact h1.2 hp
          · exact hnot h1.1
      · intro pe hpe
        rw [List.mem_cons] at hpe
        rcases hpe with rfl | hpe
        · exact ⟨g2 _ (g1 _ hp), Or.inl rfl⟩
        · rw [List.mem_append] at hpe
          rcases hpe with hpe | hpe
          · exact ⟨g2 _ (hfc pe hpe).1, Or.inr (hfc pe hpe).2⟩
          · refine ⟨(hfr pe hpe).1, ?_⟩
            rcases (hfr pe hpe).2 with hpath | hnot
            · exact Or.inl hpath
            · exact Or.inr (fun hin => hnot (g1 _ hin))
      · intro pe hpe hpath
        rw [List.mem_cons] at hpe
        rcases hpe with rfl | hpe
        · exact List.mem_cons_self _ _
        · rw [List.mem_append] at hpe
          rcases hpe with hpe | hpe
          · exact absurd hp (hpath ▸ (hfc pe hpe).2)
          · exact List.mem_cons_of_mem _ (hir pe hpe hpath)

/-- The `properties` step satisfies `PropsOk` for some index list. -/
theorem propsWalkW_ok {w : List Tok → WSt → Option WSt} {path : List Tok}
    (hw : ∀ p st st2, w p st = some st2 → StepOk st st2) :
    ∀ (kvs : List (String × J)) (st st2 : WSt), path ∈ st.1 →
      propsWalkW w path kvs st = some st2 →
      ∃ idxs, PropsOk path idxs st st2 := by
  intro kvs st st2 hp h
  unfold propsWalkW at h
  rcases ho : objGet kvs "properties" with _ | v
  · rw [ho] at h
    cases h
    exact ⟨[], ⟨fun _ h => h, [], by simp, List.nodup_nil, by simp, by simp⟩⟩
  · rw [ho] at h
    cases v with
    | obj props =>
      refine ⟨props.enum.map Prod.fst, ?_⟩
      apply propsFold_ok hw props.enum st st2 hp ?_ h
      rw [List.enum_map_fst]
      exact List.nodup_range _
    | null => cases h; exact ⟨[], ⟨fun _ h => h, [], by simp,
        List.nodup_nil, by simp, by simp⟩⟩
    | bool b => cases h; exact ⟨[], ⟨fun _ h => h, [], by simp,
        List.nodup_nil, by simp, by simp⟩⟩
    | num n => cases h; exact ⟨[], ⟨fun _ h => h, [], by simp,
        List.nodup_nil, by simp, by simp⟩⟩
    | str s => cases h; exact ⟨[], ⟨fun _ h => h, [], by simp,
        List.nodup_nil, by simp, by simp⟩⟩
    | arr xs => cases h; exact ⟨[], ⟨fun _ h => h, [], by simp,
        List.nodup_nil, by simp, by simp⟩⟩

/-- The master walk invariant: a successful walk grows the visited set and
appends pairwise distinct count events, each recorded at a node path that
was unvisited before the walk and is visited after it (so a node's
`properties` map contributes at most once per walk). -/
theorem walkF_stepOk (doc : J) : ∀ (fuel : Nat) (path : List Tok)
    (st st2 : WSt), walkF doc fuel path st = some st2 → StepOk st st2 := by
  intro fuel
  induction fuel with
  | zero =>
    intro path st st2 h
    exact Option.noConfusion h
  | succ fuel ih =>
    intro path st st2 h
    rcases hg : getPath doc path with _ | node
    · simp only [walkF, hg] at h
      cases h
      exact stepOk_refl st
    · cases node with
      | null =>
        simp only [walkF, hg] at h
        cases h
        exact stepOk_refl st
      | bool b =>
        simp only [walkF, hg] at h
        cases h
        exact stepOk_refl st
      | num n =>
        simp only [walkF, hg] at h
        cases h
        exact stepOk_refl st
      | str s =>
        simp only [walkF, hg] at h
        cases h
        exact stepOk_refl st
      | arr xs =>
        by_cases hmem : path ∈ st.1
        · rw [walkF_visited hmem] at h
          cases h
          exact stepOk_refl st
        · rw [walkF_arr hg hmem] at h
          have hfold : StepOk (path :: st.1, st.2) st2 :=
            optFold_stepOk _ (fun i s s2 hs => ih _ s s2 hs) _ _ st2 h
          obtain ⟨g1, Δ, he, hn, hf⟩ := hfold
          refine ⟨fun q hq => g1 q (List.mem_cons_of_mem _ hq),
            Δ, he, hn, ?_⟩
          intro pe hpe
          refine ⟨(hf pe hpe).1, fun hin => (hf pe hpe).2
            (List.mem_cons_of_mem _ hin)⟩
      | obj kvs =>
        by_cases hmem : path ∈ st.1
        · rw [walkF_visited hmem] at h
          cases h
          exact stepOk_refl st
        · rw [walkF_obj hg hmem] at h
          rw [Option.bind_eq_some] at h
          obtain ⟨st1, h1, h⟩ := h
          rw [Option.bind_eq_some] at h
          obtain ⟨stp, h2, h3⟩ := h
          have hs1 : StepOk (path :: st.1, st.2) st1 :=
            refStepW_stepOk (fun p s s2 hs => ih p s s2 hs) kvs _ st1 h1
          have hpmem : path ∈ st1.1 := hs1.1 path (List.mem_cons_self _ _)
          obtain ⟨idxs, hps⟩ :=
            propsWalkW_ok (fun p s s2 hs => ih p s s2 hs) kvs st1 stp
              hpmem h2
          have hs3 : StepOk stp st2 :=
            optFold_stepOk _ (genStepW_stepOk (fun p s s2 hs => ih p s s2 hs))
              kvs stp st2 h3
          obtain ⟨g1, Δr, he1, hn1, hf1⟩ := hs1
          obtain ⟨g2, Δp, he2, hn2, hf2, hi2⟩ := hps
          obtain ⟨g3, Δg, he3, hn3, hf3⟩ := hs3
          refine ⟨fun q hq => g3 _ (g2 _ (g1 _ (List.mem_cons_of_mem _ hq))),
            Δr ++ (Δp ++ Δg), ?_, ?_, ?_⟩
          · rw [he3, he2, he1]
            simp
          · rw [List.nodup_append, List.nodup_append]
            refine ⟨hn1, ⟨hn2, hn3, ?_⟩, ?_⟩
            · intro pe hpe1 hpe2
              exact (hf3 pe hpe2).2 ((hf2 pe hpe1).1)
            · intro pe hpe1 hpe2
              have h1r := hf1 pe hpe1
              rw [List.mem_cons, not_or] at h1r
              rw [List.mem_append] at hpe2
              rcases hpe2 with hpe2 | hpe2
              · rcases (hf2 pe hpe2).2 with hpath | hnot
                · exact h1r.2.1 hpath
                · exact hnot h1r.1
              · exact (hf3 pe hpe2).2 (g2 _ h1r.1)
          · intro pe hpe
            rw [List.mem_append] at hpe
            rcases hpe with hpe | hpe
            · have h1r := hf1 pe hpe
              rw [List.mem_cons, not_or] at h1r
              exact ⟨g3 _ (g2 _ h1r.1), h1r.2.2⟩
            · rw [List.mem_append] at hpe
              rcases hpe with hpe | hpe
              · refine ⟨g3 _ (hf2 pe hpe).1, ?_⟩
                rcases (hf2 pe hpe).2 with hpath | hnot
                · rw [hpath]
                  exact hmem
                · exact fun hin => hnot (g1 _ (List.mem_cons_of_mem _ hin))
              · exact ⟨(hf3 pe hpe).1, fun hin => (hf3 pe hpe).2
                  (g2 _ (g1 _ (List.mem_cons_of_mem _ hin)))⟩

/-- Folding preserves success under an invariant. -/
theorem optFold_some_of {α : Type} (f : α → WSt → Option WSt)
    (P : WSt → Prop)
    (hf : ∀ a st, P st → ∃ st2, f a st = some st2 ∧ P st2) :
    ∀ (l : List α) (st), P st →
      ∃ st2, optFold f l st = some st2 ∧ P st2 := by
  intro l
  induction l with
  | nil =>
    intro st h
    exact ⟨st, rfl, h⟩
  | cons a as ih =>
    intro st h
    obtain ⟨mid, hmid, hP⟩ := hf a st h
    obtain ⟨st2, h2, hP2⟩ := ih mid hP
    refine ⟨st2, ?_, hP2⟩
    simp only [optFold, hmid]
    exact h2

/-- The `$ref` step succeeds under an invariant the walk preserves. -/
theorem refStepW_some {doc : J} {w : List Tok → WSt → Option WSt}
    (P : WSt → Prop)
    (hw : ∀ p st, P st → ∃ st2, w p st = some st2 ∧ P st2) :
    ∀ (kvs : List (String × J)) (st : WSt), P st →
      ∃ st2, refStepW doc w kvs st = some st2 ∧ P st2 := by
  intro kvs st h
  unfold refStepW
  rcases ho : objGet kvs "$ref" with _ | v
  · exact ⟨st, rfl, h⟩
  · cases v with
    | str r =>
      show ∃ st2, (if (r.data.head? == some '#' ||
          r.data.head? == some '/') = true then
        (match resolvePath doc r.data with
         | some tp => w tp st
         | none => some st)
        else some st) = some st2 ∧ P st2
      by_cases hc : (r.data.head? == some '#' || r.data.head? == some '/')
          = true
      · rw [if_pos hc]
        rcases hr : resolvePath doc r.data with _ | tp
        · exact ⟨st, rfl, h⟩
        · exact hw tp st h
      · rw [if_neg hc]
        exact ⟨st, rfl, h⟩
    | null => exact ⟨st, rfl, h⟩
    | bool b => exact ⟨st, rfl, h⟩
    | num n => exact ⟨st, rfl, h⟩
    | arr xs => exact ⟨st, rfl, h⟩
    | obj kvs2 => exact ⟨st, rfl, h⟩

/-- The `properties` step succeeds under a visited-only invariant the walk
preserves. -/
theorem propsWalkW_some {w : List Tok → WSt → Option WSt} (P : WSt → Prop)
    (hP1 : ∀ v e e2, P (v, e) → P (v, e2))
    (hw : ∀ p st, P st → ∃ st2, w p st = some st2 ∧ P st2) :
    ∀ (path : List Tok) (kvs : List (String × J)) (st : WSt), P st →
      ∃ st2, propsWalkW w path kvs st = some st2 ∧ P st2 := by
  intro path kvs st h
  unfold propsWalkW
  rcases ho : objGet kvs "properties" with _ | v
  · exact ⟨st, rfl, h⟩
  · cases v with
    | obj props =>
      apply optFold_some_of _ P ?_ props.enum st h
      intro ikv st2 h2
      have h3 : P (st2.1, st2.2 ++ [(path, ikv.1, ikv.2.1)]) := by
        obtain ⟨v2, e2⟩ := st2
        exact hP1 v2 e2 _ h2
      exact hw _ _ h3
    | null => exact ⟨st, rfl, h⟩
    | bool b => exact ⟨st, rfl, h⟩
    | num n => exact ⟨st, rfl, h⟩
    | str s => exact ⟨st, rfl, h⟩
    | arr xs => exact ⟨st, rfl, h⟩

/-- A generic-loop entry succeeds under an invariant the walk preserves. -/
theorem genStepW_some {w : List Tok → WSt → Option WSt} (P : WSt → Prop)
    (hw : ∀ p st, P st → ∃ st2, w p st = some st2 ∧ P st2) :
    ∀ (path : List Tok) (kv : String × J) (st : WSt), P st →
      ∃ st2, genStepW w path kv st = some st2 ∧ P st2 := by
  intro path kv st h
  unfold genStepW
  by_cases h1 : (kv.1 == "properties") = true
  · rw [if_pos h1]
    exact ⟨st, rfl, h⟩
  · rw [if_neg h1]
    by_cases h2 : (kv.1 == "patternProperties") = true
    · rw [if_pos h2]
      rcases hv : kv.2 with _ | b | n | s | xs | subs
      · exact ⟨st, rfl, h⟩
      · exact ⟨st, rfl, h⟩
      · exact ⟨st, rfl, h⟩
      · exact ⟨st, rfl, h⟩
      · exact ⟨st, rfl, h⟩
      · exact optFold_some_of _ P (fun skv st2 h2 => hw _ st2 h2) subs st h
    · rw [if_neg h2]
      by_cases h3 : kv.1 ∈ walkKeys
      · rw [if_pos h3]
        exact hw _ st h
      · rw [if_neg h3]
        rcases hv : kv.2 with _ | b | n | s | xs | subs
        · exact ⟨st, rfl, h⟩
        · exact ⟨st, rfl, h⟩
        · exact ⟨st, rfl, h⟩
        · exact ⟨st, rfl, h⟩
        · exact hw _ st h
        · exact hw _ st h

/-- Success: the walk never runs out once the fuel exceeds the number of
unvisited document paths — the cycle guard bounds the recursion by the
document size, whatever `$ref` cycles the document contains. -/
theorem walkF_some (doc : J) : ∀ (fuel : Nat) (path : List Tok) (st : WSt),
    measureP (allPathsF (sizeOf doc) doc) st.1 < fuel →
    ∃ st2, walkF doc fuel path st = some st2 := by
  intro fuel
  induction fuel with
  | zero =>
    intro path st h
    exact absurd h (Nat.not_lt_zero _)
  | succ fuel ih =>
    intro path st h
    have hwP : ∀ (p : List Tok) (s : WSt),
        measureP (allPathsF (sizeOf doc) doc) s.1 < fuel →
        ∃ s2, walkF doc fuel p s = some s2 ∧
          measureP (allPathsF (sizeOf doc) doc) s2.1 < fuel := by
      intro p s hs
      obtain ⟨s2, hs2⟩ := ih p s hs
      refine ⟨s2, hs2, ?_⟩
      have hgr := (walkF_stepOk doc fuel p s s2 hs2).1
      exact lt_of_le_of_lt (measureP_mono hgr) hs
    rcases hg : getPath doc path with _ | node
    · exact ⟨st, by simp only [walkF, hg]⟩
    · cases node with
      | null => exact ⟨st, by simp only [walkF, hg]⟩
      | bool b => exact ⟨st, by simp only [walkF, hg]⟩
      | num n => exact ⟨st, by simp only [walkF, hg]⟩
      | str s => exact ⟨st, by simp only [walkF, hg]⟩
      | arr xs =>
        by_cases hmem : path ∈ st.1
        · exact ⟨st, walkF_visited hmem⟩
        · have hpA : path ∈ allPathsF (sizeOf doc) doc :=
            mem_allPathsF_of_getPath (sizeOf doc) doc path _ (le_refl _) hg
          have hm0 : measureP (allPathsF (sizeOf doc) doc)
              (path :: st.1) < fuel := by
            have hlt := measureP_insert_lt hpA hmem
            omega
          obtain ⟨st2, h2, _⟩ := optFold_some_of _
            (fun s => measureP (allPathsF (sizeOf doc) doc) s.1 < fuel)
            (fun i s hs => hwP _ s hs) (List.range xs.length)
            (path :: st.1, st.2) hm0
          refine ⟨st2, ?_⟩
          rw [walkF_arr hg hmem]
          exact h2
      | obj kvs =>
        by_cases hmem : path ∈ st.1
        · exact ⟨st, walkF_visited hmem⟩
        · have hpA : path ∈ allPathsF (sizeOf doc) doc :=
            mem_allPathsF_of_getPath (sizeOf doc) doc path _ (le_refl _) hg
          have hm0 : measureP (allPathsF (sizeOf doc) doc)
              (path :: st.1) < fuel := by
            have hlt := measureP_insert_lt hpA hmem
            omega
          obtain ⟨st1, h1, hP1⟩ := refStepW_some
            (fun s => measureP (allPathsF (sizeOf doc) doc) s.1 < fuel)
            (fun p s hs => hwP p s hs) kvs (path :: st.1, st.2) hm0
          obtain ⟨stp, h2, hP2⟩ := propsWalkW_some
            (fun s => measureP (allPathsF (sizeOf doc) doc) s.1 < fuel)
            (fun v e e2 hv => hv) (fun p s hs => hwP p s hs) path kvs st1 hP1
          obtain ⟨st2, h3, _⟩ := optFold_some_of _
            (fun s => measureP (allPathsF (sizeOf doc) doc) s.1 < fuel)
            (fun kv s hs => genStepW_some _ (fun p s2 hs2 => hwP p s2 hs2)
              path kv s hs) kvs stp hP2
          refine ⟨st2, ?_⟩
          rw [walkF_obj hg hmem, h1, Option.some_bind, h2, Option.some_bind]
          exact h3

/-- The C3 worked document: two separate `links[]` entries whose
`targetSchema` objects are distinct nodes, each structurally
`{"properties": {"id": {}}}`. -/
def egC3Doc : J :=
  J.obj [("definitions", J.obj [("d", J.obj [("links", J.arr
    [J.obj [("targetSchema", J.obj [("properties", J.obj
       [("id", J.obj [])])])],
     J.obj [("targetSchema", J.obj [("properties", J.obj
       [("id", J.obj [])])])]])])])]

/-- Path of the first C3 payload schema. -/
def egC3Path1 : List Tok :=
  [Tok.key "definitions", Tok.key "d", Tok.key "links", Tok.idx 0,
   Tok.key "targetSchema"]

/-- Path of the second C3 payload schema. -/
def egC3Path2 : List Tok :=
  [Tok.key "definitions", Tok.key "d", Tok.key "links", Tok.idx 1,
   Tok.key "targetSchema"]

/-- C3: every payload schema found under `definitions.<name>.links[]` (a
link object whose `targetSchema` is an object or array) is walked with a
fresh empty visited set while all walks share one event accumulator; the
events of a single payload walk are pairwise distinct, so one `properties`
map contributes at most once per key within one walk; and on the worked
document each of the two payloads contributes its own `"id"` count,
totalling 2. -/
theorem c3_per_payload_counting :
    (∀ (doc : J) (fuel : Nat) (path : List Tok) (v2 : List (List Tok))
      (events : List (List Tok × Nat × String)),
      walkF doc fuel path ([], []) = some (v2, events) → events.Nodup) ∧
    payloadPaths egC3Doc = [egC3Path1, egC3Path2] ∧
    countPropsO egC3Doc 100 =
      some [(egC3Path1, 0, "id"), (egC3Path2, 0, "id")] ∧
    countOf [(egC3Path1, 0, "id"), (egC3Path2, 0, "id")] "id" = 2 := by
  refine ⟨?_, by decide, by decide, by decide⟩
  intro doc fuel path v2 events h
  obtain ⟨_, Δ, he, hn, _⟩ := walkF_stepOk doc fuel path ([], []) (v2, events) h
  have he2 : events = Δ := by simpa using he
  rw [he2]
  exact hn

/-- C3 witness: the at-most-once statement applied to the first payload
walk of the worked document. -/
theorem c3_per_payload_counting_witness :
    ([(egC3Path1, 0, "id")] :
      List (List Tok × Nat × String)).Nodup :=
  c3_per_payload_counting.1 egC3Doc 100 egC3Path1
    [egC3Path1 ++ [Tok.key "properties", Tok.key "id"], egC3Path1]
    [(egC3Path1, 0, "id")] (by decide)

/-- The C4 cyclic document: the payload schema contains
`{"self": {"$ref": "#/definitions/self"}}` whose resolution leads back to
an ancestor of the payload itself. -/
def selfDoc : J :=
  J.obj [("definitions", J.obj [("self", J.obj [("links", J.arr
    [J.obj [("targetSchema", J.obj [("properties", J.obj
       [("self", J.obj [("$ref", J.str "#/definitions/self")])])])]])])])]

/-- Path of the cyclic document's payload schema. -/
def selfPayloadPath : List Tok :=
  [Tok.key "definitions", Tok.key "self", Tok.key "links", Tok.idx 0,
   Tok.key "targetSchema"]

/-- C4: the counting walk terminates on every document: whenever the fuel
exceeds the number of unvisited document paths the walk returns a result
(the identity-keyed visited set lets each node be entered at most once per
payload walk), and on the cyclic document the walk of the self-referencing
payload returns the same result for every sufficient fuel — no infinite
recursion. -/
theorem c4_walk_terminates :
    (∀ (doc : J) (fuel : Nat) (path : List Tok) (st : WSt),
      measureP (allPathsF (sizeOf doc) doc) st.1 < fuel →
      walkF doc fuel path st ≠ none) ∧
    (∀ n : Nat, walkF selfDoc (n + 10) selfPayloadPath ([], []) =
      some ([[Tok.key "definitions", Tok.key "self", Tok.key "links",
          Tok.idx 0],
        [Tok.key "definitions", Tok.key "self", Tok.key "links"],
        [Tok.key "definitions", Tok.key "self"],
        [Tok.key "definitions", Tok.key "self", Tok.key "links", Tok.idx 0,
         Tok.key "targetSchema", Tok.key "properties", Tok.key "self"],
        selfPayloadPath],
       [(selfPayloadPath, 0, "self")])) ∧
    payloadPaths selfDoc = [selfPayloadPath] := by
  refine ⟨?_, fun n => rfl, by decide⟩
  intro doc fuel path st h hnone
  obtain ⟨st2, h2⟩ := walkF_some doc fuel path st h
  rw [h2] at hnone
  exact Option.noConfusion hnone

/-- C4 witness: the termination statement applied to the cyclic document's
payload walk. -/
theorem c4_walk_terminates_witness :
    walkF selfDoc 50 selfPayloadPath ([], []) ≠ none :=
  c4_walk_terminates.1 selfDoc 50 selfPayloadPath ([], []) (by decide)

/-- A failed `$ref` resolution (as a `json_pointer_get` error) leaves the
walk state untouched. -/
theorem refStepW_err {doc : J} {w : List Tok → WSt → Option WSt}
    {kvs : List (String × J)} {st : WSt} {r : String} {e : PErr}
    (ho : objGet kvs "$ref" = some (J.str r))
    (he : jpGetL doc r.data = Except.error e) :
    refStepW doc w kvs st = some st := by
  unfold refStepW
  rw [ho]
  show (if (r.data.head? == some '#' || r.data.head? == some '/') = true
      then
    (match resolvePath doc r.data with
     | some tp => w tp st
     | none => some st)
    else some st) = some st
  by_cases hc : (r.data.head? == some '#' || r.data.head? == some '/')
      = true
  · rw [if_pos hc]
    have hrp := (resolvePath_agrees_jpGetL doc r.data).1 e he
    rw [hrp]
  · rw [if_neg hc]

/-- The C5 worked document: the payload carries a dangling
`{"$ref": "#/definitions/missing"}` next to `{"properties": {"id": {}}}`. -/
def egBadRefDoc : J :=
  J.obj [("definitions", J.obj [("d", J.obj [("links", J.arr
    [J.obj [("targetSchema", J.obj
       [("$ref", J.str "#/definitions/missing"),
        ("properties", J.obj [("id", J.obj [])])])]])])])]

/-- Path of the C5 payload schema. -/
def egBadRefPath : List Tok :=
  [Tok.key "definitions", Tok.key "d", Tok.key "links", Tok.idx 0,
   Tok.key "targetSchema"]

/-- C5: when a node's `$ref` resolution raises a `json_pointer_get` error,
the error is swallowed: the `$ref` step returns the state unchanged, the
walk of that node continues with the `properties` counting and the generic
key recursion exactly as if the `$ref` branch were absent, and on the
worked document the sibling `properties` entry is still counted while the
whole count returns without any resolution error escaping. -/
theorem c5_unresolved_ref_swallowed :
    (∀ (doc : J) (w : List Tok → WSt → Option WSt)
      (kvs : List (String × J)) (st : WSt) (r : String) (e : PErr),
      objGet kvs "$ref" = some (J.str r) →
      jpGetL doc r.data = Except.error e →
      refStepW doc w kvs st = some st) ∧
    (∀ (doc : J) (fuel : Nat) (path : List Tok) (st : WSt)
      (kvs : List (String × J)) (r : String) (e : PErr),
      getPath doc path = some (J.obj kvs) → path ∉ st.1 →
      objGet kvs "$ref" = some (J.str r) →
      jpGetL doc r.data = Except.error e →
      walkF doc (fuel + 1) path st =
        (propsWalkW (fun p s => walkF doc fuel p s) path kvs
          (path :: st.1, st.2)).bind (fun st2 =>
          optFold (genStepW (fun p s => walkF doc fuel p s) path)
            kvs st2)) ∧
    countPropsO egBadRefDoc 100 = some [(egBadRefPath, 0, "id")] ∧
    countOf [(egBadRefPath, 0, "id")] "id" = 1 := by
  refine ⟨fun doc w kvs st r e ho he => refStepW_err ho he, ?_,
    by decide, by decide⟩
  intro doc fuel path st kvs r e hg hnot ho he
  rw [walkF_obj hg hnot, refStepW_err ho he, Option.some_bind]

/-- C5 witness: the `$ref` step of the worked document's payload leaves
the fresh walk state unchanged. -/
theorem c5_unresolved_ref_swallowed_witness :
    refStepW egBadRefDoc (fun p s => walkF egBadRefDoc 99 p s)
      [("$ref", J.str "#/definitions/missing"),
       ("properties", J.obj [("id", J.obj [])])]
      ([egBadRefPath], []) = some ([egBadRefPath], []) :=
  c5_unresolved_ref_swallowed.1 egBadRefDoc _ _ _
    "#/definitions/missing" PErr.tokenNotFound rfl rfl
